import Mathlib

/-!
Verification of the tag-advance scheduling engine of the Rust RTI for
distributed Lingua Franca programs (files `src/rust/rti/src/tag.rs` and
`src/rust/rti/src/rti_common.rs`), via a shallow embedding.

Machine integers are modelled as `Int` (for `i64`/`i32`) and `Nat` (for
`u32`/`u16`/`u64`), with wrap-around written explicitly (`% 2^64`, `% 2^32`)
exactly where the Rust release-mode semantics wraps.  Rust `Vec` indexing
that would panic out of bounds is modelled with `List.getD` and a default;
all evaluated runs stay in bounds.  `std::process::exit(1)` and blocking on
the start-time condition variable are modelled by returning `none`; general
recursion is driven by an explicit fuel, with `none` on exhaustion.
-/

namespace LfRti

/-! ## Tag algebra (`tag.rs`) -/

/-- `NEVER` sentinel time value, `i64::MIN`. -/
def NEVER : Int := -(2 ^ 63)

/-- `FOREVER` sentinel time value, `i64::MAX`. -/
def FOREVER : Int := 2 ^ 63 - 1

/-- Modulus of `u32` arithmetic. -/
def U32_MOD : Nat := 2 ^ 32

/-- `u32::MAX`, the `FOREVER_MICROSTEP`. -/
def U32_MAX : Nat := 2 ^ 32 - 1

/-- A tag is a `(time : i64, microstep : u32)` pair (`struct Tag` in `tag.rs`). -/
structure Tag where
  time : Int
  microstep : Nat
deriving DecidableEq

/-- `Tag::never_tag()`: `(i64::MIN, 0)`. -/
def neverTag : Tag := { time := NEVER, microstep := 0 }

/-- `Tag::forever_tag()`: `(i64::MAX, u32::MAX)`. -/
def foreverTag : Tag := { time := FOREVER, microstep := U32_MAX }

/-- `Tag::zero_tag()`: `(0, 0)`. -/
def zeroTag : Tag := { time := 0, microstep := 0 }

/-- `Interval = Option<i64>`; `None` encodes "no delay". -/
def Interval : Type := Option Int

/-- The `Ord` instance Rust derives on `Option<i64>` restricted to `<`:
`None` is less than every `Some`, and `Some x < Some y` iff `x < y`.
Used by `lf_delay_tag` (`interval < Some(0)`) and by the zero-delay-cycle
test (`upstream_delay < Some(0)`). -/
def intervalLt (a b : Option Int) : Bool :=
  match a, b with
  | none, none => false
  | none, some _ => true
  | some _, none => false
  | some x, some y => x < y

/-- `Tag::lf_tag_compare`: three-way lexicographic comparison returning
`-1`, `0` or `1`. -/
def lfTagCompare (tag1 tag2 : Tag) : Int :=
  if tag1.time < tag2.time then -1
  else if tag1.time > tag2.time then 1
  else if tag1.microstep < tag2.microstep then -1
  else if tag1.microstep > tag2.microstep then 1
  else 0

/-- `Tag::lf_delay_tag`.  Returns the tag unchanged when its time is `NEVER`
or the interval is `None` or negative; saturates to `FOREVER` on overflow;
a `Some(0)` interval bumps the microstep (wrapping `u32` addition); a
positive interval adds to the time and zeroes the microstep. -/
def lfDelayTag (tag : Tag) (interval : Option Int) : Tag :=
  if tag.time = NEVER ∨ intervalLt interval (some 0) then tag
  else
    match interval with
    | none => tag  -- unreachable: `none < some 0` was handled above
    | some k =>
      if tag.time ≥ FOREVER - k then foreverTag
      else if k = 0 then { tag with microstep := (tag.microstep + 1) % U32_MOD }
      else { time := tag.time + k, microstep := 0 }

/-- `Tag::lf_delay_strict`: like `lf_delay_tag`, but when the interval is
neither `Some(0)` nor `Some(NEVER)` nor `Some(FOREVER)` and the result time
is finite, decrement the time and set the microstep to `u32::MAX`.  Note
that a `none` interval is not excluded by these tests. -/
def lfDelayStrict (tag : Tag) (interval : Option Int) : Tag :=
  let result := lfDelayTag tag interval
  if interval ≠ some 0 ∧ interval ≠ some NEVER ∧ interval ≠ some FOREVER ∧
      result.time ≠ NEVER ∧ result.time ≠ FOREVER then
    { time := result.time - 1, microstep := U32_MAX }
  else result

/-- Two's-complement wrap-around of `i64` addition. -/
def wrap64 (x : Int) : Int := (x + 2 ^ 63) % 2 ^ 64 - 2 ^ 63

/-- `Tag::lf_tag_add`: saturating addition on both fields; any `NEVER` input
yields `NEVER`, any `FOREVER` input yields `FOREVER`; microstep overflow and
time overflow/underflow are detected after wrapping addition and saturate. -/
def lfTagAdd (a b : Tag) : Tag :=
  if a.time = NEVER ∨ b.time = NEVER then neverTag
  else if a.time = FOREVER ∨ b.time = FOREVER then foreverTag
  else
    let rTime := wrap64 (a.time + b.time)
    let rMicrostep := (a.microstep + b.microstep) % U32_MOD
    if rMicrostep < a.microstep then foreverTag
    else if rTime < a.time ∧ b.time > 0 then foreverTag
    else if rTime > a.time ∧ b.time < 0 then neverTag
    else { time := rTime, microstep := rMicrostep }

/-- Claim C8: the claim states `delay_strict(t, None) = delay_tag(t, None) = t`
for every finite-time tag, but `lf_delay_strict` only exempts `Some(0)`,
`Some(NEVER)` and `Some(FOREVER)` from the strict adjustment, so the `None`
interval ("no delay") falls through to the adjustment: at `t = (0,0)` the
code returns `(-1, u32::MAX)` while `delay_tag` returns `t` itself.  The
other two parts of the claim (the `Some(0)` and `Some(k>0)` cases) do hold
at concrete inputs, as the last two conjuncts show. -/
theorem c8_delay_strict_none :
    lfDelayStrict { time := 0, microstep := 0 } none =
      { time := -1, microstep := U32_MAX } ∧
    lfDelayTag { time := 0, microstep := 0 } none = { time := 0, microstep := 0 } ∧
    lfDelayStrict { time := 0, microstep := 0 } (some 0) = { time := 0, microstep := 1 } ∧
    lfDelayTag { time := 0, microstep := 0 } (some 0) = { time := 0, microstep := 1 } ∧
    lfDelayStrict { time := 7, microstep := 3 } (some 5) =
      { time := 11, microstep := U32_MAX } := by
  decide

/-! ## Scheduling nodes and the registry (`rti_common.rs`) -/

/-- `SchedulingNodeState` (`rti_common.rs`). -/
inductive SchedulingNodeState where
  | NotConnected
  | Granted
  | Pending
deriving DecidableEq

/-- `ExecutionMode` (`rti_common.rs`). -/
inductive ExecutionMode where
  | FAST
  | REALTIME
deriving DecidableEq

/-- `MinimumDelay`: an upstream node id (`i32`) with the minimum delay from it. -/
structure MinimumDelay where
  id : Int
  minDelay : Tag
deriving DecidableEq

/-- `IS_IN_ZERO_DELAY_CYCLE` flag bit. -/
def IS_IN_ZERO_DELAY_CYCLE : Nat := 1

/-- `IS_IN_CYCLE` flag bit. -/
def IS_IN_CYCLE : Nat := 2

/-- The `i32` bit pattern of `!IS_IN_ZERO_DELAY_CYCLE`, as a mask on the
32 low bits (flag values stay far below `2^32`). -/
def NOT_ZDC_MASK : Nat := 2 ^ 32 - 2

/-- `struct SchedulingNode` (`rti_common.rs`), with the same fields. -/
structure SchedulingNode where
  id : Nat
  completed : Tag
  lastGranted : Tag
  lastProvisionallyGranted : Tag
  nextEvent : Tag
  state : SchedulingNodeState
  upstream : List Int
  upstreamDelay : List (Option Int)
  numUpstream : Int
  downstream : List Int
  numDownstream : Int
  mode : ExecutionMode
  minDelays : List MinimumDelay
  numMinDelays : Nat
  flags : Nat
deriving DecidableEq

/-- `SchedulingNode::new()`. -/
def SchedulingNode.new : SchedulingNode :=
  { id := 0
    completed := neverTag
    lastGranted := neverTag
    lastProvisionallyGranted := neverTag
    nextEvent := neverTag
    state := SchedulingNodeState.NotConnected
    upstream := []
    upstreamDelay := []
    numUpstream := 0
    downstream := []
    numDownstream := 0
    mode := ExecutionMode.REALTIME
    minDelays := []
    numMinDelays := 0
    flags := 0 }

/-- The registry `RTICommon`: the scheduling nodes (indexed densely by
federate id) plus federation-wide bookkeeping. -/
structure RTICommon where
  nodes : List SchedulingNode
  numberOfSchedulingNodes : Int
  maxStopTag : Tag
  numSchedulingNodesHandlingStop : Int
deriving DecidableEq

/-- Read the node with index `i` (Rust panics out of bounds; evaluated runs
stay in bounds, so the default is irrelevant there). -/
def getNode (s : RTICommon) (i : Nat) : SchedulingNode :=
  s.nodes.getD i SchedulingNode.new

/-- Write node `i` through an update function (a no-op out of bounds, where
Rust would panic). -/
def updNode (s : RTICommon) (i : Nat) (f : SchedulingNode → SchedulingNode) : RTICommon :=
  { s with nodes := s.nodes.set i (f (s.nodes.getD i SchedulingNode.new)) }

/-- `Vec::insert(idx, v)`: shift-inserting, not overwriting.  The source uses
this on `path_delays` and `min_delays` where an overwrite may have been
intended; the embedding reproduces the shift.  An out-of-range index, where
Rust panics, leaves the list unchanged (unreachable in evaluated runs). -/
def listInsertIdx {α : Type} : Nat → α → List α → List α
  | 0, a, l => a :: l
  | _ + 1, _, [] => []
  | n + 1, a, x :: xs => x :: listInsertIdx n a xs

/-! ## Min-delay path engine (`_update_min_delays_upstream`,
`update_min_delays_upstream`)

The DFS relaxation is embedded with explicit fuel (`none` = fuel exhausted).
It faithfully reproduces two peculiarities of the source: the recursive call
passes `intermediate_idx` unchanged (not the newly lowered upstream index),
and `path_delays.insert` shift-inserts rather than overwriting. -/

/-- One step of the `for i in 0..num_upstream` loop of
`_update_min_delays_upstream`, parameterized by the continuation `recur`
standing for the recursive call at the remaining fuel: relax upstream edge
`i` of the intermediate node; on a strict improvement either recurse
(passing `interIdx` unchanged, exactly as the source does) or, when the
upstream is the end node, record the cycle flags. -/
def minDelaysStep
    (recur : RTICommon → Int → Int → List Tag → Nat → Option (RTICommon × List Tag × Nat))
    (endIdx interIdx : Int) (delaySoFar : Tag)
    (acc : Option (RTICommon × List Tag × Nat)) (i : Nat) :
    Option (RTICommon × List Tag × Nat) :=
  match acc with
  | none => none
  | some (s, pd, count) =>
    let e := getNode s interIdx.toNat
    let upstreamIdx : Int := e.upstream.getD i 0
    let upstreamDelay : Option Int := e.upstreamDelay.getD i none
    let pathDelay := lfDelayTag delaySoFar upstreamDelay
    if lfTagCompare pathDelay (pd.getD upstreamIdx.toNat foreverTag) < 0 then
      let count1 :=
        if (pd.getD upstreamIdx.toNat foreverTag).time = FOREVER then count + 1 else count
      let pd1 := listInsertIdx upstreamIdx.toNat pathDelay pd
      if endIdx ≠ upstreamIdx then
        recur s endIdx interIdx pd1 count1
      else
        let s1 := updNode s endIdx.toNat
          (fun n => { n with flags := n.flags ||| IS_IN_CYCLE })
        let s2 :=
          if lfTagCompare pathDelay zeroTag = 0 ∧ intervalLt upstreamDelay (some 0) then
            updNode s1 endIdx.toNat
              (fun n => { n with flags := n.flags ||| IS_IN_ZERO_DELAY_CYCLE })
          else
            updNode s1 endIdx.toNat
              (fun n => { n with flags := n.flags &&& NOT_ZDC_MASK })
        some (s2, pd1, count1)
    else
      some (s, pd, count)

/-- `_update_min_delays_upstream`: resolve the intermediate index, read the
delay so far, stop at a not-connected intermediate, then fold the relaxation
step over the intermediate's upstream edges.  Fuel bounds the recursion
depth (`none` = exhausted; any sufficiently large fuel yields the Rust
behavior). -/
def minDelaysDfs : Nat → RTICommon → Int → Int → List Tag → Nat →
    Option (RTICommon × List Tag × Nat)
  | 0, _, _, _, _, _ => none
  | fuel1 + 1, s, endIdx, interIdx0, pd, count =>
    let delaySoFar := if interIdx0 < 0 then zeroTag else pd.getD interIdx0.toNat foreverTag
    let interIdx := if interIdx0 < 0 then endIdx else interIdx0
    let intermediate := getNode s interIdx.toNat
    if intermediate.state = SchedulingNodeState.NotConnected then some (s, pd, count)
    else
      (List.range intermediate.numUpstream.toNat).foldl
        (minDelaysStep (minDelaysDfs fuel1) endIdx interIdx delaySoFar)
        (some (s, pd, count))

/-- The materialization loop of `update_min_delays_upstream`: for each node
index `i` with a finite path delay, append `(i, path_delays[i])` to the
node's `min_delays` at position `k`.  `k >= count` triggers the fatal
internal-error `process::exit(1)`, modelled as `none`. -/
def materializeLoop (nodeIdx : Nat) (pd : List Tag) (count : Nat) :
    List Nat → RTICommon → Nat → Option RTICommon
  | [], s, _ => some s
  | i :: rest, s, k =>
    if lfTagCompare (pd.getD i foreverTag) foreverTag < 0 then
      if k ≥ count then none
      else
        let entry : MinimumDelay := { id := Int.ofNat i, minDelay := pd.getD i foreverTag }
        let s1 := updNode s nodeIdx (fun n =>
          { n with minDelays := listInsertIdx k entry n.minDelays })
        materializeLoop nodeIdx pd count rest s1 (k + 1)
    else materializeLoop nodeIdx pd count rest s k

/-- `update_min_delays_upstream`: when the cached `num_min_delays` is zero,
run the DFS from scratch over `path_delays` initialized to `FOREVER`, store
the resulting count, and materialize the finite entries in ascending
node-id order. -/
def updateMinDelaysUpstream (s : RTICommon) (nodeIdx : Nat) (fuel : Nat) :
    Option RTICommon :=
  let numMinDelays := (getNode s nodeIdx).numMinDelays
  let n := s.numberOfSchedulingNodes.toNat
  if numMinDelays = 0 then
    match minDelaysDfs fuel s (Int.ofNat nodeIdx) (-1) (List.replicate n foreverTag) 0 with
    | none => none
    | some (s1, pd, count) =>
      let s2 := updNode s1 nodeIdx (fun nd => { nd with numMinDelays := count })
      materializeLoop nodeIdx pd count (List.range n) s2 0
  else some s

/-! ## EIMT and the grant decision (`earliest_future_incoming_message_tag`,
`is_in_zero_delay_cycle`, `tag_advance_grant_if_safe`) -/

/-- Default used where Rust would panic reading `min_delays[i]` out of
bounds (unreachable in evaluated runs). -/
def defaultMinimumDelay : MinimumDelay := { id := 0, minDelay := foreverTag }

/-- One iteration of the loop of `earliest_future_incoming_message_tag`:
read entry `i` of the federate's `min_delays`; if the upstream node's
`next_event` is exactly `NEVER_TAG`, store `(start_time, 0)` into that node
— but keep using the stale local `upstream_next_event` (as the source does);
fold the candidate `lf_tag_add(upstream_next_event, min_delay)` into the
running minimum. -/
def eimtStep (fedId : Nat) (startTime : Int) (acc : Tag × RTICommon) (i : Nat) :
    Tag × RTICommon :=
  let tD := acc.1
  let s := acc.2
  let entry := (getNode s fedId).minDelays.getD i defaultMinimumDelay
  let upstreamId := entry.id.toNat
  let upstreamNextEvent := (getNode s upstreamId).nextEvent
  let s1 :=
    if lfTagCompare upstreamNextEvent neverTag = 0 then
      updNode s upstreamId (fun u => { u with nextEvent := { time := startTime, microstep := 0 } })
    else s
  let minDelay := ((getNode s1 fedId).minDelays.getD i defaultMinimumDelay).minDelay
  let earliest := lfTagAdd upstreamNextEvent minDelay
  (if lfTagCompare earliest tD < 0 then earliest else tD, s1)

/-- `earliest_future_incoming_message_tag`: reads `num_min_delays` FIRST,
then updates the min-delay cache, then iterates `0..num_min_delays` with the
stale count (as the source does), starting the minimum at `FOREVER_TAG`. -/
def earliestFutureIncomingMessageTag (s : RTICommon) (fedId : Nat)
    (startTime : Int) (fuel : Nat) : Option (Tag × RTICommon) :=
  let numMinDelays := (getNode s fedId).numMinDelays
  match updateMinDelaysUpstream s fedId fuel with
  | none => none
  | some s1 =>
    some ((List.range numMinDelays).foldl (eimtStep fedId startTime) (foreverTag, s1))

/-- `is_in_zero_delay_cycle`: update the min-delay cache, then test the
`IS_IN_ZERO_DELAY_CYCLE` bit of the node's flags. -/
def isInZeroDelayCycle (s : RTICommon) (fedId : Nat) (fuel : Nat) :
    Option (Bool × RTICommon) :=
  match updateMinDelaysUpstream s fedId fuel with
  | none => none
  | some s1 => some (decide ((getNode s1 fedId).flags &&& IS_IN_ZERO_DELAY_CYCLE ≠ 0), s1)

/-- `TagAdvanceGrant`: the tag (`NEVER` when there is no grant) and whether
it is provisional. -/
structure TagAdvanceGrant where
  tag : Tag
  isProvisional : Bool
deriving DecidableEq

/-- The fast-path accumulation of `tag_advance_grant_if_safe`: fold over the
`(upstream, upstream_delay)` pairs, skipping not-connected upstreams, taking
the minimum (by `lf_tag_compare`) of `lf_delay_strict(upstream.completed,
delay)`. -/
def minUpstreamCompletedFold (s : RTICommon) (l : List (Int × Option Int)) (m : Tag) : Tag :=
  l.foldl (fun m ud =>
    let upstream := getNode s ud.1.toNat
    if upstream.state = SchedulingNodeState.NotConnected then m
    else
      let candidate := lfDelayStrict upstream.completed ud.2
      if lfTagCompare candidate m < 0 then candidate else m) m

/-- `tag_advance_grant_if_safe`: first the fast path via upstream LTCs, then
the EIMT path with its two grant scenarios.  The returned grant has tag
`NEVER` when no grant can be issued.  State is threaded because the EIMT
computation and the zero-delay-cycle test mutate the registry. -/
def tagAdvanceGrantIfSafe (s : RTICommon) (fedId : Nat) (startTime : Int)
    (fuel : Nat) : Option (TagAdvanceGrant × RTICommon) :=
  let e := getNode s fedId
  let minUpstreamCompleted :=
    minUpstreamCompletedFold s (List.zip e.upstream e.upstreamDelay) foreverTag
  if lfTagCompare minUpstreamCompleted e.lastGranted > 0 ∧
      lfTagCompare minUpstreamCompleted e.nextEvent ≥ 0 then
    some ({ tag := minUpstreamCompleted, isProvisional := false }, s)
  else
    match earliestFutureIncomingMessageTag s fedId startTime fuel with
    | none => none
    | some (tD, s1) =>
      let e1 := getNode s1 fedId
      if lfTagCompare tD e1.nextEvent > 0 ∧
          lfTagCompare tD e1.lastProvisionallyGranted ≥ 0 ∧
          lfTagCompare tD e1.lastGranted > 0 then
        some ({ tag := e1.nextEvent, isProvisional := false }, s1)
      else if lfTagCompare tD e1.nextEvent = 0 then
        match isInZeroDelayCycle s1 fedId fuel with
        | none => none
        | some (zdc, s2) =>
          if zdc ∧ lfTagCompare tD e1.lastProvisionallyGranted > 0 ∧
              lfTagCompare tD e1.lastGranted > 0 then
            some ({ tag := e1.nextEvent, isProvisional := true }, s2)
          else some ({ tag := neverTag, isProvisional := false }, s2)
      else some ({ tag := neverTag, isProvisional := false }, s1)

/-! ## Concrete registries exercising the min-delay engine -/

/-- A freshly initialized node with the given id, set to `Granted`. -/
def grantedNode (i : Nat) : SchedulingNode :=
  { SchedulingNode.new with id := i, state := SchedulingNodeState.Granted }

/-- An empty registry shell holding the given nodes. -/
def mkRegistry (ns : List SchedulingNode) : RTICommon :=
  { nodes := ns
    numberOfSchedulingNodes := Int.ofNat ns.length
    maxStopTag := neverTag
    numSchedulingNodesHandlingStop := 0 }

/-- Chain `0 → 1 → 2`, each connection with delay `Some(1)` ns. -/
def c3Chain : RTICommon :=
  mkRegistry
    [grantedNode 0,
     { grantedNode 1 with upstream := [0], upstreamDelay := [some 1], numUpstream := 1 },
     { grantedNode 2 with upstream := [1], upstreamDelay := [some 1], numUpstream := 1 }]

/-- Claim C3 (code_bug evidence): on the chain `0 → 1 → 2` (both delays
`Some(1)`), `update_min_delays_upstream(2)` should, per the claim, record
both transitive upstream nodes — `(0, (2,0))` and `(1, (1,0))` — but the
code records only the direct upstream `(1, (1,0))`: the recursion passes
`intermediate_idx` unchanged instead of the newly relaxed upstream index, so
the relaxation never proceeds past one hop. -/
theorem c3_min_delays_not_transitive :
    (updateMinDelaysUpstream c3Chain 2 100).map
        (fun s1 => ((getNode s1 2).minDelays, (getNode s1 2).numMinDelays)) =
      some ([MinimumDelay.mk 1 (Tag.mk 1 0)], 1) := by
  decide

/-- Two-node cycle `0 ↔ 1`, both connections with no delay (`None`). -/
def c4Cycle : RTICommon :=
  mkRegistry
    [{ grantedNode 0 with upstream := [1], upstreamDelay := [none], numUpstream := 1 },
     { grantedNode 1 with upstream := [0], upstreamDelay := [none], numUpstream := 1 }]

/-- Claim C4 (code_bug evidence): node 0 of the two-node no-delay cycle
`0 ↔ 1` lies on a cycle whose accumulated delay under `delay_tag` is `ZERO`
(second conjunct), yet `is_in_zero_delay_cycle(0)` returns `false` and the
flags stay `0` (the one-hop-only relaxation never closes the two-node
cycle).  By contrast a direct self-loop is detected (last conjunct). -/
theorem c4_zdc_flag_missed :
    (isInZeroDelayCycle c4Cycle 0 100).map
        (fun p => (p.1, (getNode p.2 0).flags)) = some (false, 0) ∧
    lfDelayTag (lfDelayTag zeroTag none) none = zeroTag ∧
    (isInZeroDelayCycle
        (mkRegistry
          [{ grantedNode 0 with upstream := [0], upstreamDelay := [none], numUpstream := 1 }])
        0 100).map (fun p => p.1) = some true := by
  decide

/-- Node 0 (NET `(5,0)`) upstream of node 1 with delay `Some(1)`; node 1's
min-delay cache is empty, so the next EIMT call must rebuild it. -/
def c2CacheEmpty : RTICommon :=
  mkRegistry
    [{ grantedNode 0 with nextEvent := Tag.mk 5 0 },
     { grantedNode 1 with upstream := [0], upstreamDelay := [some 1], numUpstream := 1 }]

/-- Node 0 (NET still `NEVER`) upstream of node 1 with delay `Some(1)`;
node 1's min-delay cache is already valid with the single entry
`(0, (1,0))`. -/
def c2StaleNever : RTICommon :=
  mkRegistry
    [grantedNode 0,
     { grantedNode 1 with
        upstream := [0]
        upstreamDelay := [some 1]
        numUpstream := 1
        minDelays := [MinimumDelay.mk 0 (Tag.mk 1 0)]
        numMinDelays := 1 }]

/-- Claim C2 (code_bug evidence).  First conjunct: on the call that rebuilds
the cache (`num_min_delays == 0` beforehand), the code returns `FOREVER`
even though the rebuilt cache has one upstream entry — it iterates over the
count read before the update; per the claim the result should be
`tag_add((5,0), (1,0)) = (6,0)` (second conjunct computes that candidate).
Third conjunct: with a valid cache and a silent upstream (`next_event ==
NEVER`), the code stores `(start_time, 0) = (0,0)` into the upstream node
but computes the candidate from the stale `NEVER` local, returning `NEVER`
instead of `tag_add((0,0), (1,0)) = (1,0)`. -/
theorem c2_eimt_stale_count :
    (earliestFutureIncomingMessageTag c2CacheEmpty 1 0 100).map
        (fun p => (p.1, (getNode p.2 1).numMinDelays)) = some (foreverTag, 1) ∧
    lfTagAdd (Tag.mk 5 0) (Tag.mk 1 0) = Tag.mk 6 0 ∧
    (earliestFutureIncomingMessageTag c2StaleNever 1 0 100).map
        (fun p => (p.1, (getNode p.2 0).nextEvent)) = some (neverTag, zeroTag) := by
  decide

/-! ## The total order on tags, spec-side -/

/-- The spec's strict total order on tags: lexicographic on
`(time, microstep)`. -/
def tagLtB (a b : Tag) : Bool :=
  decide (a.time < b.time) ||
    (decide (a.time = b.time) && decide (a.microstep < b.microstep))

/-- The spec's non-strict order on tags. -/
def tagLeB (a b : Tag) : Bool := tagLtB a b || decide (a = b)

theorem tag_ext_iff (a b : Tag) : a = b ↔ a.time = b.time ∧ a.microstep = b.microstep := by
  cases a; cases b; simp

theorem compare_lt_iff_ltB (a b : Tag) : lfTagCompare a b < 0 ↔ tagLtB a b = true := by
  simp only [lfTagCompare, tagLtB, Bool.or_eq_true, Bool.and_eq_true, decide_eq_true_eq]
  split_ifs <;> omega

theorem compare_pos_iff_ltB (a b : Tag) : lfTagCompare a b > 0 ↔ tagLtB b a = true := by
  simp only [lfTagCompare, tagLtB, Bool.or_eq_true, Bool.and_eq_true, decide_eq_true_eq]
  split_ifs <;> omega

theorem compare_nonneg_iff_leB (a b : Tag) : lfTagCompare a b ≥ 0 ↔ tagLeB b a = true := by
  simp only [lfTagCompare, tagLeB, tagLtB, Bool.or_eq_true, Bool.and_eq_true,
    decide_eq_true_eq, tag_ext_iff]
  split_ifs <;> omega

theorem compare_zero_iff_eq (a b : Tag) : lfTagCompare a b = 0 ↔ a = b := by
  rw [tag_ext_iff]
  simp only [lfTagCompare]
  split_ifs <;> (try simp only [false_iff, true_iff]) <;> omega

theorem compare_nonpos_trans {a b c : Tag} (h1 : lfTagCompare a b ≤ 0)
    (h2 : lfTagCompare b c ≤ 0) : lfTagCompare a c ≤ 0 := by
  simp only [lfTagCompare] at h1 h2 ⊢
  split_ifs at h1 h2 ⊢ <;> omega

theorem compare_pos_neg {a b : Tag} (h : lfTagCompare a b > 0) : lfTagCompare b a ≤ 0 := by
  simp only [lfTagCompare] at h ⊢
  split_ifs at h ⊢ <;> omega

/-! ## The grant decision as the spec states it (§4.2) -/

/-- Spec §4.2 step 1: `M`, the minimum over connected upstream pairs
`(u, d)` of `delay_strict(u.completed, d)`, expressed as the fold of the
binary lexicographic minimum over the filtered, mapped candidate list
(`FOREVER` when there is no connected upstream). -/
def specMinUpstreamCompleted (s : RTICommon) (f : SchedulingNode) : Tag :=
  (((List.zip f.upstream f.upstreamDelay).filter
      (fun ud => decide ((getNode s ud.1.toNat).state ≠ SchedulingNodeState.NotConnected))).map
      (fun ud => lfDelayStrict (getNode s ud.1.toNat).completed ud.2)).foldl
    (fun m c => if tagLtB c m then c else m) foreverTag

/-- The grant decision procedure as the spec describes it, written with the
lexicographic order on tags: fast path on `M` (grant `(M, false)` when
`M > last_granted` and `M >= next_event`), else compute `t_d = EIMT`; a TAG
`(NET, false)` when `t_d > NET`, `t_d >= LPT`, `t_d > LT`; a PTAG
`(NET, true)` when `t_d == NET`, the federate is in a zero-delay cycle (the
engine's flag-based predicate), `t_d > LPT`, `t_d > LT`; otherwise no grant
(tag `NEVER`). -/
def specDecideGrant (s : RTICommon) (fedId : Nat) (startTime : Int) (fuel : Nat) :
    Option (TagAdvanceGrant × RTICommon) :=
  let e := getNode s fedId
  let m := specMinUpstreamCompleted s e
  if tagLtB e.lastGranted m ∧ tagLeB e.nextEvent m then
    some ({ tag := m, isProvisional := false }, s)
  else
    match earliestFutureIncomingMessageTag s fedId startTime fuel with
    | none => none
    | some (tD, s1) =>
      let e1 := getNode s1 fedId
      if tagLtB e1.nextEvent tD ∧ tagLeB e1.lastProvisionallyGranted tD ∧
          tagLtB e1.lastGranted tD then
        some ({ tag := e1.nextEvent, isProvisional := false }, s1)
      else if tD = e1.nextEvent then
        match isInZeroDelayCycle s1 fedId fuel with
        | none => none
        | some (zdc, s2) =>
          if zdc ∧ tagLtB e1.lastProvisionallyGranted tD ∧ tagLtB e1.lastGranted tD then
            some ({ tag := e1.nextEvent, isProvisional := true }, s2)
          else some ({ tag := neverTag, isProvisional := false }, s2)
      else some ({ tag := neverTag, isProvisional := false }, s1)

/-- The code's accumulation (skip not-connected inline, compare with
`lf_tag_compare`) equals the spec's filter-map-fold with the lexicographic
binary minimum, for every accumulator. -/
theorem minUpstreamCompletedFold_eq (s : RTICommon)
    (l : List (Int × Option Int)) (m : Tag) :
    minUpstreamCompletedFold s l m =
      ((l.filter
          (fun ud => decide ((getNode s ud.1.toNat).state ≠ SchedulingNodeState.NotConnected))).map
          (fun ud => lfDelayStrict (getNode s ud.1.toNat).completed ud.2)).foldl
        (fun m c => if tagLtB c m then c else m) m := by
  induction l generalizing m with
  | nil => rfl
  | cons hd tl ih =>
    by_cases h : (getNode s hd.1.toNat).state = SchedulingNodeState.NotConnected
    · have h1 : minUpstreamCompletedFold s (hd :: tl) m = minUpstreamCompletedFold s tl m := by
        simp [minUpstreamCompletedFold, h]
      rw [h1, List.filter_cons, if_neg (by simp [h]), ih]
    · have h1 : minUpstreamCompletedFold s (hd :: tl) m =
          minUpstreamCompletedFold s tl
            (if lfTagCompare (lfDelayStrict (getNode s hd.1.toNat).completed hd.2) m < 0
             then lfDelayStrict (getNode s hd.1.toNat).completed hd.2 else m) := by
        simp [minUpstreamCompletedFold, h]
      have h2 : (hd :: tl).filter
            (fun ud => decide ((getNode s ud.1.toNat).state ≠ SchedulingNodeState.NotConnected)) =
          hd :: tl.filter
            (fun ud => decide ((getNode s ud.1.toNat).state ≠ SchedulingNodeState.NotConnected)) := by
        rw [List.filter_cons, if_pos (by simp [h])]
      rw [h1, h2, List.map_cons, List.foldl_cons, ih]
      congr 1
      exact if_congr (compare_lt_iff_ltB _ _) rfl rfl

/-- Claim C1: for every federate with at least one upstream node, the grant
decision of `tag_advance_grant_if_safe` is exactly the procedure the spec
describes: fast path on the minimum of `delay_strict` over connected
upstream completions, then the EIMT case analysis producing a TAG, a PTAG
(when in a zero-delay cycle, per the engine's flag predicate), or no grant,
with the stated strict/non-strict comparisons against `last_granted` and
`last_provisionally_granted`. -/
theorem c1_grant_decision (s : RTICommon) (fedId : Nat) (startTime : Int)
    (fuel : Nat) (hup : (getNode s fedId).upstream ≠ []) :
    tagAdvanceGrantIfSafe s fedId startTime fuel = specDecideGrant s fedId startTime fuel := by
  clear hup
  unfold tagAdvanceGrantIfSafe specDecideGrant specMinUpstreamCompleted
  simp only [minUpstreamCompletedFold_eq]
  refine if_congr (and_congr (compare_pos_iff_ltB _ _) (compare_nonneg_iff_leB _ _)) rfl ?_
  cases earliestFutureIncomingMessageTag s fedId startTime fuel with
  | none => rfl
  | some p =>
    obtain ⟨tD, s1⟩ := p
    refine if_congr (and_congr (compare_pos_iff_ltB _ _)
      (and_congr (compare_nonneg_iff_leB _ _) (compare_pos_iff_ltB _ _))) rfl ?_
    refine if_congr (compare_zero_iff_eq _ _) ?_ rfl
    cases isInZeroDelayCycle s1 fedId fuel with
    | none => rfl
    | some q =>
      obtain ⟨zdc, s2⟩ := q
      exact if_congr (and_congr Iff.rfl
        (and_congr (compare_pos_iff_ltB _ _) (compare_pos_iff_ltB _ _))) rfl rfl

/-- A registry on which to witness the C1 theorem: node 0 upstream of
node 1 with delay `Some(1)`. -/
def c1State : RTICommon :=
  mkRegistry
    [{ grantedNode 0 with nextEvent := Tag.mk 5 0 },
     { grantedNode 1 with upstream := [0], upstreamDelay := [some 1], numUpstream := 1 }]

/-- Witness for C1 at a concrete input with one upstream node. -/
theorem c1_grant_decision_witness :
    (getNode c1State 1).upstream ≠ [] ∧
    tagAdvanceGrantIfSafe c1State 1 0 100 = specDecideGrant c1State 1 0 100 :=
  ⟨by decide, c1_grant_decision c1State 1 0 100 (by decide)⟩

/-! ## Grant propagation (`notify_tag_advance_grant`,
`notify_provisional_tag_advance_grant`, downstream sweeps, `logical_tag_complete`)

The dispatcher write is modelled by an oracle `wr : Nat → WriteOutcome`
giving, per federate id, the outcome of the `stream.write` call.  Blocking
forever on the start-time condition variable (destination still `Pending`,
single-threaded semantics) is modelled as `none`. -/

/-- Outcome of the `stream.write(&buffer)` call. -/
inductive WriteOutcome where
  | ok (bytesWritten : Nat)
  | err
deriving DecidableEq

/-- `message_length = 1 + mem::size_of::<i64>() + mem::size_of::<u32>()`. -/
def messageLength : Nat := 1 + 8 + 4

/-- `notify_tag_advance_grant`: drop when not connected or the tag does not
exceed `last_granted` and `last_provisionally_granted`; block on `Pending`;
then write the frame.  A write error sets the state to `NotConnected` and
leaves `last_granted` unchanged; otherwise — including a short write, which
the source merely logs without setting `error_occurred` — `last_granted` is
set to the granted tag. -/
def notifyTagAdvanceGrant (s : RTICommon) (fedId : Nat) (tag : Tag)
    (wr : Nat → WriteOutcome) : Option RTICommon :=
  let e := getNode s fedId
  if e.state = SchedulingNodeState.NotConnected ∨
      lfTagCompare tag e.lastGranted ≤ 0 ∨
      lfTagCompare tag e.lastProvisionallyGranted ≤ 0 then
    some s
  else if e.state = SchedulingNodeState.Pending then none
  else
    let errorOccurred :=
      match wr fedId with
      | WriteOutcome.ok _ => false
      | WriteOutcome.err => true
    if errorOccurred then
      some (updNode s fedId (fun n => { n with state := SchedulingNodeState.NotConnected }))
    else
      some (updNode s fedId (fun n => { n with lastGranted := tag }))

/-- One iteration of the upstream PTAG propagation loop of
`notify_provisional_tag_advance_grant`, with `recur` standing for the
recursive call at the remaining fuel: skip a resigned upstream; compute its
EIMT (a mutating call); recurse when the EIMT is at least the granted tag. -/
def ptagPropagateStep (recur : RTICommon → Nat → Option RTICommon) (fedId : Nat)
    (tag : Tag) (startTime : Int) (eimtFuel : Nat)
    (acc : Option RTICommon) (j : Nat) : Option RTICommon :=
  match acc with
  | none => none
  | some s =>
    let eId := ((getNode s fedId).upstream.getD j 0).toNat
    if (getNode s eId).state = SchedulingNodeState.NotConnected then some s
    else
      match earliestFutureIncomingMessageTag s eId startTime eimtFuel with
      | none => none
      | some (earlist, s1) =>
        if lfTagCompare earlist tag ≥ 0 then recur s1 eId else some s1

/-- `notify_provisional_tag_advance_grant`: same drop/block preconditions as
TAG.  A short write logs and returns with no state change at all.  Otherwise
— on a successful write, and also on a write error, in which case the state
is first set to `NotConnected` — `last_provisionally_granted` is set
unconditionally, and the PTAG is propagated to upstream federates whose
EIMT is at least the granted tag. -/
def notifyProvisionalTagAdvanceGrant :
    Nat → RTICommon → Nat → Tag → Int → (Nat → WriteOutcome) → Option RTICommon
  | 0, _, _, _, _, _ => none
  | fuel1 + 1, s, fedId, tag, startTime, wr =>
    let e := getNode s fedId
    if e.state = SchedulingNodeState.NotConnected ∨
        lfTagCompare tag e.lastGranted ≤ 0 ∨
        lfTagCompare tag e.lastProvisionallyGranted ≤ 0 then
      some s
    else if e.state = SchedulingNodeState.Pending then none
    else
      let send := fun (errorOccurred : Bool) =>
        let sA :=
          if errorOccurred then
            updNode s fedId (fun nd => { nd with state := SchedulingNodeState.NotConnected })
          else s
        let sB := updNode sA fedId (fun nd => { nd with lastProvisionallyGranted := tag })
        (List.range (getNode sB fedId).numUpstream.toNat).foldl
          (ptagPropagateStep
            (fun s1 eId => notifyProvisionalTagAdvanceGrant fuel1 s1 eId tag startTime wr)
            fedId tag startTime fuel1)
          (some sB)
      match wr fedId with
      | WriteOutcome.ok n => if n < messageLength then some s else send false
      | WriteOutcome.err => send true

/-- `notify_advance_grant_if_safe`: run the grant decision and dispatch a
TAG or PTAG when the decided tag is not `NEVER`. -/
def notifyAdvanceGrantIfSafe (s : RTICommon) (fedId : Nat) (startTime : Int)
    (wr : Nat → WriteOutcome) (fuel : Nat) : Option RTICommon :=
  match tagAdvanceGrantIfSafe s fedId startTime fuel with
  | none => none
  | some (grant, s1) =>
    if lfTagCompare grant.tag neverTag ≠ 0 then
      if grant.isProvisional then
        notifyProvisionalTagAdvanceGrant fuel s1 fedId grant.tag startTime wr
      else notifyTagAdvanceGrant s1 fedId grant.tag wr
    else some s1

/-- `notify_downstream_advance_grant_if_safe`: mark the federate visited,
then for each downstream not yet visited, try to grant it and recurse,
threading the `visited` array. -/
def notifyDownstreamAdvanceGrantIfSafe :
    Nat → RTICommon → Nat → Int → List Bool → (Nat → WriteOutcome) →
    Option (RTICommon × List Bool)
  | 0, _, _, _, _, _ => none
  | fuel1 + 1, s, fedId, startTime, visited, wr =>
    let visited1 := visited.set fedId true
    (List.range (getNode s fedId).numDownstream.toNat).foldl
      (fun acc i =>
        match acc with
        | none => none
        | some (s2, vis) =>
          let eId := ((getNode s2 fedId).downstream.getD i 0).toNat
          if vis.getD eId false then some (s2, vis)
          else
            match notifyAdvanceGrantIfSafe s2 eId startTime wr fuel1 with
            | none => none
            | some s3 => notifyDownstreamAdvanceGrantIfSafe fuel1 s3 eId startTime vis wr)
      (some (s, visited1))

/-- `logical_tag_complete`: record the completed tag, then for each
immediate downstream federate try to grant it and sweep its downstream
cone with a fresh `visited` array of size `number_of_enclaves` (a parameter
of the source function, supplied by the caller from the registry). -/
def logicalTagComplete (fuel : Nat) (s : RTICommon) (fedId numberOfEnclaves : Nat)
    (startTime : Int) (wr : Nat → WriteOutcome) (completed : Tag) : Option RTICommon :=
  let s1 := updNode s fedId (fun nd => { nd with completed := completed })
  (List.range (getNode s1 fedId).numDownstream.toNat).foldl
    (fun acc i =>
      match acc with
      | none => none
      | some s2 =>
        let eId := ((getNode s2 fedId).downstream.getD i 0).toNat
        match notifyAdvanceGrantIfSafe s2 eId startTime wr fuel with
        | none => none
        | some s3 =>
          match notifyDownstreamAdvanceGrantIfSafe fuel s3 eId startTime
              (List.replicate numberOfEnclaves false) wr with
          | none => none
          | some (s4, _) => some s4)
    (some s1)

/-- Registry for the C5 evidence: one connected node, nothing granted yet. -/
def c5State : RTICommon := mkRegistry [grantedNode 0]

/-- Claim C5 (code_bug evidence): a short write (here 5 of the 13 frame
bytes) during `notify_tag_advance_grant` is only logged — `error_occurred`
stays false — so the code falls through to the success path: it sets
`last_granted` to the granted tag and leaves the federate connected, where
the claim (and the error-handling policy of the spec) requires
`state = NotConnected` with `last_granted` unchanged.  The write-error path
(second conjunct) does behave as the claim says. -/
theorem c5_short_write_grants :
    (notifyTagAdvanceGrant c5State 0 (Tag.mk 10 0) (fun _ => WriteOutcome.ok 5)).map
        (fun s1 => ((getNode s1 0).lastGranted, (getNode s1 0).state)) =
      some (Tag.mk 10 0, SchedulingNodeState.Granted) ∧
    (notifyTagAdvanceGrant c5State 0 (Tag.mk 10 0) (fun _ => WriteOutcome.err)).map
        (fun s1 => ((getNode s1 0).lastGranted, (getNode s1 0).state)) =
      some (neverTag, SchedulingNodeState.NotConnected) := by
  decide

/-- Registry for the C6 evidence: one connected node, nothing granted yet. -/
def c6State : RTICommon := mkRegistry [grantedNode 0]

/-- Claim C6 (code_bug evidence): in `notify_provisional_tag_advance_grant`
a write error sets the state to `NotConnected` but — the `else` being
missing — still sets `last_provisionally_granted` to the granted tag (first
conjunct), where the claim says the grant is dropped with
`last_provisionally_granted` unchanged; and a short write returns early
without marking the federate `NotConnected` (second conjunct), where the
claim requires the same soft-failure handling as a write error. -/
theorem c6_error_sets_provisional :
    (notifyProvisionalTagAdvanceGrant 10 c6State 0 (Tag.mk 10 0) 0
          (fun _ => WriteOutcome.err)).map
        (fun s1 => ((getNode s1 0).state, (getNode s1 0).lastProvisionallyGranted)) =
      some (SchedulingNodeState.NotConnected, Tag.mk 10 0) ∧
    (notifyProvisionalTagAdvanceGrant 10 c6State 0 (Tag.mk 10 0) 0
          (fun _ => WriteOutcome.ok 5)).map
        (fun s1 => ((getNode s1 0).state, (getNode s1 0).lastProvisionallyGranted)) =
      some (SchedulingNodeState.Granted, neverTag) := by
  decide

/-! ## Registry access lemmas -/

theorem listSet_getD_ne {α : Type} (l : List α) (i j : Nat) (v d : α) (h : j ≠ i) :
    (l.set i v).getD j d = l.getD j d := by
  induction l generalizing i j with
  | nil => rfl
  | cons hd tl ih =>
    cases i with
    | zero =>
      cases j with
      | zero => exact absurd rfl h
      | succ j1 => rfl
    | succ i1 =>
      cases j with
      | zero => rfl
      | succ j1 => exact ih i1 j1 (by omega)

theorem listSet_getD_self {α : Type} (l : List α) (i : Nat) (v d : α) :
    (l.set i v).getD i d = if i < l.length then v else l.getD i d := by
  induction l generalizing i with
  | nil => simp [List.getD]
  | cons hd tl ih =>
    cases i with
    | zero => simp
    | succ i1 =>
      simp only [List.set, List.length_cons]
      have h1 : (hd :: tl.set i1 v).getD (i1 + 1) d = (tl.set i1 v).getD i1 d := rfl
      have h2 : (hd :: tl).getD (i1 + 1) d = tl.getD i1 d := rfl
      rw [h1, h2, ih]
      by_cases h : i1 < tl.length
      · rw [if_pos h, if_pos (by omega)]
      · rw [if_neg h, if_neg (by omega)]

theorem getNode_updNode_ne (s : RTICommon) (i j : Nat)
    (f : SchedulingNode → SchedulingNode) (h : j ≠ i) :
    getNode (updNode s i f) j = getNode s j :=
  listSet_getD_ne _ _ _ _ _ h

theorem getNode_updNode_self (s : RTICommon) (i : Nat)
    (f : SchedulingNode → SchedulingNode) :
    getNode (updNode s i f) i = f (getNode s i) ∨ getNode (updNode s i f) i = getNode s i := by
  unfold getNode updNode
  rw [show ({ s with nodes := s.nodes.set i (f (s.nodes.getD i SchedulingNode.new)) } :
      RTICommon).nodes = s.nodes.set i (f (s.nodes.getD i SchedulingNode.new)) from rfl]
  rw [listSet_getD_self]
  by_cases h : i < s.nodes.length
  · exact Or.inl (by rw [if_pos h])
  · exact Or.inr (by rw [if_neg h])

/-! ## Frame predicates: which node fields an engine call may change -/

/-- Equality of all `SchedulingNode` fields except `nextEvent`,
`minDelays`, `numMinDelays` and `flags`. -/
def coreEq (a b : SchedulingNode) : Prop :=
  a.id = b.id ∧ a.completed = b.completed ∧ a.lastGranted = b.lastGranted ∧
  a.lastProvisionallyGranted = b.lastProvisionallyGranted ∧ a.state = b.state ∧
  a.upstream = b.upstream ∧ a.upstreamDelay = b.upstreamDelay ∧
  a.numUpstream = b.numUpstream ∧ a.downstream = b.downstream ∧
  a.numDownstream = b.numDownstream ∧ a.mode = b.mode

theorem coreEq_refl (a : SchedulingNode) : coreEq a a := by
  unfold coreEq; repeat' constructor

theorem coreEq_trans {a b c : SchedulingNode} (h1 : coreEq a b) (h2 : coreEq b c) :
    coreEq a c := by
  unfold coreEq at *
  obtain ⟨e1, e2, e3, e4, e5, e6, e7, e8, e9, e10, e11⟩ := h1
  obtain ⟨f1, f2, f3, f4, f5, f6, f7, f8, f9, f10, f11⟩ := h2
  exact ⟨e1.trans f1, e2.trans f2, e3.trans f3, e4.trans f4, e5.trans f5, e6.trans f6,
    e7.trans f7, e8.trans f8, e9.trans f9, e10.trans f10, e11.trans f11⟩

/-- Equality of the min-delay cache fields. -/
def cacheEq (a b : SchedulingNode) : Prop :=
  a.minDelays = b.minDelays ∧ a.numMinDelays = b.numMinDelays ∧ a.flags = b.flags

theorem cacheEq_refl (a : SchedulingNode) : cacheEq a a := ⟨rfl, rfl, rfl⟩

theorem cacheEq_trans {a b c : SchedulingNode} (h1 : cacheEq a b) (h2 : cacheEq b c) :
    cacheEq a c :=
  ⟨h1.1.trans h2.1, h1.2.1.trans h2.2.1, h1.2.2.trans h2.2.2⟩

/-- Frame of the min-delay DFS: every field of every node unchanged, except
the flags of the end node. -/
def DfsFrame (endN : Nat) (s s' : RTICommon) : Prop :=
  ∀ j, coreEq (getNode s' j) (getNode s j) ∧
    (getNode s' j).nextEvent = (getNode s j).nextEvent ∧
    (getNode s' j).minDelays = (getNode s j).minDelays ∧
    (getNode s' j).numMinDelays = (getNode s j).numMinDelays ∧
    (j ≠ endN → (getNode s' j).flags = (getNode s j).flags)

theorem DfsFrame_refl (endN : Nat) (s : RTICommon) : DfsFrame endN s s :=
  fun j => ⟨coreEq_refl _, rfl, rfl, rfl, fun _ => rfl⟩

theorem DfsFrame_trans {endN : Nat} {a b c : RTICommon}
    (h1 : DfsFrame endN a b) (h2 : DfsFrame endN b c) : DfsFrame endN a c := by
  intro j
  obtain ⟨c1, n1, m1, k1, f1⟩ := h1 j
  obtain ⟨c2, n2, m2, k2, f2⟩ := h2 j
  exact ⟨coreEq_trans c2 c1, n2.trans n1, m2.trans m1, k2.trans k1,
    fun h => (f2 h).trans (f1 h)⟩

/-- Frame of `update_min_delays_upstream`: every node keeps its core fields
and `nextEvent`; only the target node's cache fields (`minDelays`,
`numMinDelays`, `flags`) may change. -/
def UpdFrame (nodeIdx : Nat) (s s' : RTICommon) : Prop :=
  ∀ j, coreEq (getNode s' j) (getNode s j) ∧
    (getNode s' j).nextEvent = (getNode s j).nextEvent ∧
    (j ≠ nodeIdx → cacheEq (getNode s' j) (getNode s j))

theorem UpdFrame_refl (nodeIdx : Nat) (s : RTICommon) : UpdFrame nodeIdx s s :=
  fun j => ⟨coreEq_refl _, rfl, fun _ => cacheEq_refl _⟩

theorem UpdFrame_trans {nodeIdx : Nat} {a b c : RTICommon}
    (h1 : UpdFrame nodeIdx a b) (h2 : UpdFrame nodeIdx b c) : UpdFrame nodeIdx a c := by
  intro j
  obtain ⟨c1, n1, f1⟩ := h1 j
  obtain ⟨c2, n2, f2⟩ := h2 j
  exact ⟨coreEq_trans c2 c1, n2.trans n1, fun h => cacheEq_trans (f2 h) (f1 h)⟩

/-- A generic preservation lemma for `foldl` over an `Option` accumulator:
if each step taken from `some` either fails or moves along a transitive
reflexive relation, and steps from `none` stay `none`, the whole fold does
too. -/
theorem foldlOptionRel {σ : Type} {R : σ → σ → Prop}
    (hrefl : ∀ a, R a a) (htrans : ∀ {a b c}, R a b → R b c → R a c)
    (f : Option σ → Nat → Option σ)
    (hnone : ∀ i, f none i = none)
    (hf : ∀ a i a', f (some a) i = some a' → R a a') :
    ∀ (l : List Nat) (a : σ) (a' : σ),
      l.foldl f (some a) = some a' → R a a' := by
  have hfoldnone : ∀ l : List Nat, l.foldl f none = none := by
    intro l
    induction l with
    | nil => rfl
    | cons hd tl ih => simp only [List.foldl_cons, hnone]; exact ih
  intro l
  induction l with
  | nil => intro a a' h; cases h; exact hrefl a
  | cons hd tl ih =>
    intro a a' h
    simp only [List.foldl_cons] at h
    cases hstep : f (some a) hd with
    | none => rw [hstep, hfoldnone] at h; cases h
    | some a1 =>
      rw [hstep] at h
      exact htrans (hf a hd a1 hstep) (ih a1 a' h)

/-! ## Frame of the min-delay engine -/

theorem updFrame_updNode (s : RTICommon) (i : Nat) (f : SchedulingNode → SchedulingNode)
    (hcore : ∀ n, coreEq (f n) n) (hne : ∀ n, (f n).nextEvent = n.nextEvent) :
    UpdFrame i s (updNode s i f) := by
  intro j
  by_cases h : j = i
  · subst h
    rcases getNode_updNode_self s j f with h1 | h1 <;> rw [h1]
    · exact ⟨hcore _, hne _, fun hj => absurd rfl hj⟩
    · exact ⟨coreEq_refl _, rfl, fun hj => absurd rfl hj⟩
  · rw [getNode_updNode_ne s i j f h]
    exact ⟨coreEq_refl _, rfl, fun _ => cacheEq_refl _⟩

theorem updFrame_updNode_minDelays (s : RTICommon) (i : Nat)
    (g : SchedulingNode → List MinimumDelay) :
    UpdFrame i s (updNode s i (fun n => { n with minDelays := g n })) :=
  updFrame_updNode s i _ (fun n => by simp [coreEq]) (fun n => rfl)

theorem dfsFrame_updNode_flags (s : RTICommon) (i : Nat) (g : SchedulingNode → Nat) :
    DfsFrame i s (updNode s i (fun n => { n with flags := g n })) := by
  intro j
  by_cases h : j = i
  · subst h
    rcases getNode_updNode_self s j (fun n => { n with flags := g n }) with h1 | h1 <;> rw [h1]
    · exact ⟨by simp [coreEq], rfl, rfl, rfl, fun hj => absurd rfl hj⟩
    · exact ⟨coreEq_refl _, rfl, rfl, rfl, fun hj => absurd rfl hj⟩
  · rw [getNode_updNode_ne s i j _ h]
    exact ⟨coreEq_refl _, rfl, rfl, rfl, fun _ => rfl⟩

theorem minDelaysStep_frame
    (recur : RTICommon → Int → Int → List Tag → Nat → Option (RTICommon × List Tag × Nat))
    (endIdx interIdx : Int) (delay : Tag)
    (hrec : ∀ s pd c r, recur s endIdx interIdx pd c = some r → DfsFrame endIdx.toNat s r.1)
    (a : RTICommon × List Tag × Nat) (i : Nat) (r : RTICommon × List Tag × Nat)
    (h : minDelaysStep recur endIdx interIdx delay (some a) i = some r) :
    DfsFrame endIdx.toNat a.1 r.1 := by
  obtain ⟨s, pd, count⟩ := a
  unfold minDelaysStep at h
  dsimp only at h
  by_cases h1 : lfTagCompare (lfDelayTag delay ((getNode s interIdx.toNat).upstreamDelay.getD i none))
      (pd.getD ((getNode s interIdx.toNat).upstream.getD i 0).toNat foreverTag) < 0
  · rw [if_pos h1] at h
    by_cases h2 : endIdx ≠ (getNode s interIdx.toNat).upstream.getD i 0
    · rw [if_pos h2] at h
      exact hrec _ _ _ _ h
    · rw [if_neg h2] at h
      by_cases h3 : lfTagCompare (lfDelayTag delay ((getNode s interIdx.toNat).upstreamDelay.getD i none))
          zeroTag = 0 ∧ intervalLt ((getNode s interIdx.toNat).upstreamDelay.getD i none) (some 0) = true
      · rw [if_pos h3] at h
        cases h
        exact DfsFrame_trans (dfsFrame_updNode_flags s endIdx.toNat _)
          (dfsFrame_updNode_flags _ endIdx.toNat _)
      · rw [if_neg h3] at h
        cases h
        exact DfsFrame_trans (dfsFrame_updNode_flags s endIdx.toNat _)
          (dfsFrame_updNode_flags _ endIdx.toNat _)
  · rw [if_neg h1] at h
    cases h
    exact DfsFrame_refl _ _

theorem minDelaysDfs_frame : ∀ (fuel : Nat) (s : RTICommon) (endIdx interIdx : Int)
    (pd : List Tag) (count : Nat) (r : RTICommon × List Tag × Nat),
    minDelaysDfs fuel s endIdx interIdx pd count = some r → DfsFrame endIdx.toNat s r.1 := by
  intro fuel
  induction fuel with
  | zero => intro s endIdx interIdx pd count r h; cases h
  | succ fuel1 ih =>
    intro s endIdx interIdx0 pd count r h
    unfold minDelaysDfs at h
    dsimp only at h
    by_cases h1 : (getNode s (if interIdx0 < 0 then endIdx else interIdx0).toNat).state =
        SchedulingNodeState.NotConnected
    · rw [if_pos (by exact h1)] at h
      cases h
      exact DfsFrame_refl _ _
    · rw [if_neg (by exact h1)] at h
      exact foldlOptionRel (σ := RTICommon × List Tag × Nat)
        (R := fun a b => DfsFrame endIdx.toNat a.1 b.1)
        (fun a => DfsFrame_refl _ _) (fun hab hbc => DfsFrame_trans hab hbc)
        _ (fun i => rfl)
        (fun a i a' hstep => minDelaysStep_frame _ endIdx _ _
          (fun s2 pd2 c2 r2 h2 => ih s2 endIdx _ pd2 c2 r2 h2) a i a' hstep)
        _ _ _ h

theorem materializeLoop_frame : ∀ (l : List Nat) (nodeIdx : Nat) (pd : List Tag)
    (count : Nat) (s : RTICommon) (k : Nat) (s' : RTICommon),
    materializeLoop nodeIdx pd count l s k = some s' → UpdFrame nodeIdx s s' := by
  intro l
  induction l with
  | nil =>
    intro nodeIdx pd count s k s' h
    cases h
    exact UpdFrame_refl _ _
  | cons hd tl ih =>
    intro nodeIdx pd count s k s' h
    unfold materializeLoop at h
    by_cases h1 : lfTagCompare (pd.getD hd foreverTag) foreverTag < 0
    · rw [if_pos h1] at h
      by_cases h2 : k ≥ count
      · rw [if_pos h2] at h; cases h
      · rw [if_neg h2] at h
        dsimp only at h
        have hrest := ih nodeIdx pd count _ (k + 1) s' h
        exact UpdFrame_trans (updFrame_updNode_minDelays s nodeIdx _) hrest
    · rw [if_neg h1] at h
      exact ih nodeIdx pd count s k s' h

theorem updateMinDelaysUpstream_frame (s : RTICommon) (nodeIdx : Nat) (fuel : Nat)
    (s' : RTICommon) (h : updateMinDelaysUpstream s nodeIdx fuel = some s') :
    UpdFrame nodeIdx s s' := by
  unfold updateMinDelaysUpstream at h
  by_cases h1 : (getNode s nodeIdx).numMinDelays = 0
  · rw [if_pos h1] at h
    cases hdfs : minDelaysDfs fuel s (Int.ofNat nodeIdx) (-1)
        (List.replicate s.numberOfSchedulingNodes.toNat foreverTag) 0 with
    | none => rw [hdfs] at h; cases h
    | some r =>
      rw [hdfs] at h
      obtain ⟨s1, pd, count⟩ := r
      have hfr1 : DfsFrame nodeIdx s s1 := by
        have := minDelaysDfs_frame fuel s (Int.ofNat nodeIdx) (-1) _ 0 _ hdfs
        simpa using this
      have hfr1' : UpdFrame nodeIdx s s1 := fun j => by
        obtain ⟨c1, n1, m1, k1, f1⟩ := hfr1 j
        exact ⟨c1, n1, fun hj => ⟨m1, k1, f1 hj⟩⟩
      have hfr2 : UpdFrame nodeIdx s1
          (updNode s1 nodeIdx (fun nd => { nd with numMinDelays := count })) :=
        updFrame_updNode s1 nodeIdx _ (fun n => by simp [coreEq]) (fun n => rfl)
      exact UpdFrame_trans hfr1' (UpdFrame_trans hfr2 (materializeLoop_frame _ _ _ _ _ _ _ h))
  · rw [if_neg h1] at h
    cases h
    exact UpdFrame_refl _ _

/-! ## Frame of EIMT and of the grant decision -/

theorem listGetD_mem {α : Type} (l : List α) (i : Nat) (d : α) (h : i < l.length) :
    l.getD i d ∈ l := by
  induction l generalizing i with
  | nil => simp at h
  | cons hd tl ih =>
    cases i with
    | zero => exact List.mem_cons_self _ _
    | succ i1 => exact List.mem_cons_of_mem _ (ih i1 (by simpa using h))

/-- Frame of the loop of `earliest_future_incoming_message_tag`, relative to
the (invariant) min-delay list `M` of the federate: every node keeps every
field, except that a node listed in `M` whose `next_event` was `NEVER` may
have it overwritten with `(start_time, 0)`. -/
def EimtFoldFrame (fedId : Nat) (st : Int) (M : List MinimumDelay) (s s' : RTICommon) : Prop :=
  ∀ j, coreEq (getNode s' j) (getNode s j) ∧
    cacheEq (getNode s' j) (getNode s j) ∧
    ((getNode s' j).nextEvent = (getNode s j).nextEvent ∨
      ((getNode s j).nextEvent = neverTag ∧ (getNode s' j).nextEvent = Tag.mk st 0 ∧
        j ∈ M.map (fun m => m.id.toNat)))

theorem EimtFoldFrame_refl (fedId : Nat) (st : Int) (M : List MinimumDelay)
    (s : RTICommon) : EimtFoldFrame fedId st M s s :=
  fun j => ⟨coreEq_refl _, cacheEq_refl _, Or.inl rfl⟩

theorem EimtFoldFrame_trans {fedId : Nat} {st : Int} {M : List MinimumDelay}
    {a b c : RTICommon} (h1 : EimtFoldFrame fedId st M a b)
    (h2 : EimtFoldFrame fedId st M b c) : EimtFoldFrame fedId st M a c := by
  intro j
  obtain ⟨c1, k1, n1⟩ := h1 j
  obtain ⟨c2, k2, n2⟩ := h2 j
  refine ⟨coreEq_trans c2 c1, cacheEq_trans k2 k1, ?_⟩
  rcases n2 with n2 | ⟨nb, nc, nm⟩
  · rcases n1 with n1 | ⟨na, nb', nm'⟩
    · exact Or.inl (n2.trans n1)
    · exact Or.inr ⟨na, n2.trans nb', nm'⟩
  · rcases n1 with n1 | ⟨na, nb', nm'⟩
    · exact Or.inr ⟨n1 ▸ nb, nc, nm⟩
    · exact Or.inr ⟨na, nc, nm⟩

theorem eimtStep_frame (fedId : Nat) (st : Int) (M : List MinimumDelay)
    (t : Tag) (s : RTICommon) (i : Nat)
    (hM : (getNode s fedId).minDelays = M) (hi : i < M.length) :
    (getNode (eimtStep fedId st (t, s) i).2 fedId).minDelays = M ∧
    EimtFoldFrame fedId st M s (eimtStep fedId st (t, s) i).2 := by
  have hmem : (M.getD i defaultMinimumDelay).id.toNat ∈ M.map (fun m => m.id.toNat) :=
    List.mem_map_of_mem _ (listGetD_mem M i defaultMinimumDelay hi)
  unfold eimtStep
  dsimp only
  rw [hM]
  by_cases h0 : lfTagCompare (getNode s (M.getD i defaultMinimumDelay).id.toNat).nextEvent
      neverTag = 0
  · rw [if_pos h0]
    have hframe : EimtFoldFrame fedId st M s
        (updNode s (M.getD i defaultMinimumDelay).id.toNat
          (fun u => { u with nextEvent := Tag.mk st 0 })) := by
      intro j
      by_cases hj : j = (M.getD i defaultMinimumDelay).id.toNat
      · rcases getNode_updNode_self s (M.getD i defaultMinimumDelay).id.toNat
            (fun u => { u with nextEvent := Tag.mk st 0 }) with h1 | h1
        · rw [hj, h1]
          exact ⟨by simp [coreEq], ⟨rfl, rfl, rfl⟩,
            Or.inr ⟨(compare_zero_iff_eq _ _).mp h0, rfl, hmem⟩⟩
        · rw [hj, h1]
          exact ⟨coreEq_refl _, cacheEq_refl _, Or.inl rfl⟩
      · rw [getNode_updNode_ne _ _ _ _ hj]
        exact ⟨coreEq_refl _, cacheEq_refl _, Or.inl rfl⟩
    exact ⟨((hframe fedId).2.1).1.trans hM, hframe⟩
  · rw [if_neg h0]
    exact ⟨hM, EimtFoldFrame_refl _ _ _ _⟩

theorem eimtFold_frame (fedId : Nat) (st : Int) (M : List MinimumDelay) :
    ∀ (l : List Nat) (t : Tag) (s : RTICommon),
      (getNode s fedId).minDelays = M →
      (∀ i ∈ l, i < M.length) →
      (getNode (l.foldl (eimtStep fedId st) (t, s)).2 fedId).minDelays = M ∧
      EimtFoldFrame fedId st M s (l.foldl (eimtStep fedId st) (t, s)).2 := by
  intro l
  induction l with
  | nil => intro t s hM _; exact ⟨hM, EimtFoldFrame_refl _ _ _ _⟩
  | cons hd tl ih =>
    intro t s hM hbound
    have hstep := eimtStep_frame fedId st M t s hd hM (hbound hd (List.mem_cons_self _ _))
    have hrec := ih (eimtStep fedId st (t, s) hd).1 (eimtStep fedId st (t, s) hd).2
      hstep.1 (fun i hmem => hbound i (List.mem_cons_of_mem _ hmem))
    simp only [List.foldl_cons]
    constructor
    · exact hrec.1
    · exact EimtFoldFrame_trans hstep.2 hrec.2

/-- Frame of `earliest_future_incoming_message_tag` (and hence of the grant
decision): core fields of every node unchanged, cache fields of nodes other
than the federate unchanged, and any `next_event` change is the overwrite of
a `NEVER` with `(start_time, 0)` on a node listed in the federate's
min-delay cache. -/
def EimtFrame (fedId : Nat) (st : Int) (s s' : RTICommon) : Prop :=
  ∀ j, coreEq (getNode s' j) (getNode s j) ∧
    (j ≠ fedId → cacheEq (getNode s' j) (getNode s j)) ∧
    ((getNode s' j).nextEvent = (getNode s j).nextEvent ∨
      ((getNode s j).nextEvent = neverTag ∧ (getNode s' j).nextEvent = Tag.mk st 0 ∧
        j ∈ (getNode s' fedId).minDelays.map (fun m => m.id.toNat)))

theorem eimt_frame (s : RTICommon) (fedId : Nat) (st : Int) (fuel : Nat) (tD : Tag)
    (s' : RTICommon)
    (hwf : (getNode s fedId).numMinDelays = (getNode s fedId).minDelays.length)
    (h : earliestFutureIncomingMessageTag s fedId st fuel = some (tD, s')) :
    EimtFrame fedId st s s' ∧
    ((getNode s fedId).numMinDelays = 0 →
      ∀ j, (getNode s' j).nextEvent = (getNode s j).nextEvent) ∧
    ((getNode s fedId).numMinDelays ≠ 0 → cacheEq (getNode s' fedId) (getNode s fedId)) := by
  unfold earliestFutureIncomingMessageTag at h
  by_cases hc0 : (getNode s fedId).numMinDelays = 0
  · rw [hc0] at h
    cases hu : updateMinDelaysUpstream s fedId fuel with
    | none => rw [hu] at h; cases h
    | some s1 =>
      rw [hu] at h
      dsimp only [List.range_zero, List.foldl_nil] at h
      injection h with h1
      have hs' : s' = s1 := (congrArg Prod.snd h1).symm
      rw [hs']
      have hupd := updateMinDelaysUpstream_frame s fedId fuel s1 hu
      refine ⟨?_, ?_, fun hn => absurd hc0 hn⟩
      · intro j
        obtain ⟨hcore, hne, hcache⟩ := hupd j
        exact ⟨hcore, hcache, Or.inl hne⟩
      · intro _ j
        exact (hupd j).2.1
  · have hu : updateMinDelaysUpstream s fedId fuel = some s := by
      unfold updateMinDelaysUpstream
      rw [if_neg hc0]
    rw [hu] at h
    dsimp only at h
    injection h with h1
    have hfold := eimtFold_frame fedId st ((getNode s fedId).minDelays)
      (List.range (getNode s fedId).numMinDelays) foreverTag s rfl
      (fun i hmem => by
        rw [← hwf]
        exact List.mem_range.mp hmem)
    have hs' : s' = ((List.range (getNode s fedId).numMinDelays).foldl
        (eimtStep fedId st) (foreverTag, s)).2 := (congrArg Prod.snd h1).symm
    subst hs'
    refine ⟨?_, fun h0 => absurd h0 hc0, fun _ => ?_⟩
    · intro j
      obtain ⟨hcore, hcache, hnext⟩ := hfold.2 j
      refine ⟨hcore, fun _ => hcache, ?_⟩
      rcases hnext with hn | ⟨ha, hb, hm⟩
      · exact Or.inl hn
      · exact Or.inr ⟨ha, hb, by rw [hfold.1]; exact hm⟩
    · exact (hfold.2 fedId).2.1

theorem tagAdvanceGrantIfSafe_frame (s : RTICommon) (fedId : Nat) (st : Int)
    (fuel : Nat) (g : TagAdvanceGrant) (s' : RTICommon)
    (hwf : (getNode s fedId).numMinDelays = (getNode s fedId).minDelays.length)
    (h : tagAdvanceGrantIfSafe s fedId st fuel = some (g, s')) :
    EimtFrame fedId st s s' := by
  unfold tagAdvanceGrantIfSafe at h
  dsimp only at h
  by_cases h1 : lfTagCompare (minUpstreamCompletedFold s
      (List.zip (getNode s fedId).upstream (getNode s fedId).upstreamDelay) foreverTag)
      (getNode s fedId).lastGranted > 0 ∧
      lfTagCompare (minUpstreamCompletedFold s
      (List.zip (getNode s fedId).upstream (getNode s fedId).upstreamDelay) foreverTag)
      (getNode s fedId).nextEvent ≥ 0
  · rw [if_pos h1] at h
    injection h with h2
    have hs' : s' = s := (congrArg Prod.snd h2).symm
    subst hs'
    exact fun j => ⟨coreEq_refl _, fun _ => cacheEq_refl _, Or.inl rfl⟩
  · rw [if_neg h1] at h
    cases he : earliestFutureIncomingMessageTag s fedId st fuel with
    | none => rw [he] at h; cases h
    | some p =>
      rw [he] at h
      obtain ⟨tD, s1⟩ := p
      have heimt := eimt_frame s fedId st fuel tD s1 hwf he
      dsimp only at h
      by_cases h2 : lfTagCompare tD (getNode s1 fedId).nextEvent > 0 ∧
          lfTagCompare tD (getNode s1 fedId).lastProvisionallyGranted ≥ 0 ∧
          lfTagCompare tD (getNode s1 fedId).lastGranted > 0
      · rw [if_pos h2] at h
        injection h with h3
        have hs' : s' = s1 := (congrArg Prod.snd h3).symm
        subst hs'
        exact heimt.1
      · rw [if_neg h2] at h
        by_cases h3 : lfTagCompare tD (getNode s1 fedId).nextEvent = 0
        · rw [if_pos h3] at h
          by_cases hc0 : (getNode s fedId).numMinDelays = 0
          · -- no next-event changes happened inside EIMT; the ZDC update only
            -- touches the federate's cache fields
            cases hz : isInZeroDelayCycle s1 fedId fuel with
            | none => rw [hz] at h; cases h
            | some q =>
              rw [hz] at h
              obtain ⟨zdc, s2⟩ := q
              have hupd2 : UpdFrame fedId s1 s2 := by
                unfold isInZeroDelayCycle at hz
                cases hu2 : updateMinDelaysUpstream s1 fedId fuel with
                | none => rw [hu2] at hz; cases hz
                | some s2' =>
                  rw [hu2] at hz
                  dsimp only at hz
                  injection hz with hz1
                  have : s2 = s2' := congrArg Prod.snd hz1.symm
                  subst this
                  exact updateMinDelaysUpstream_frame s1 fedId fuel _ hu2
              have hs' : s' = s2 := by
                dsimp only at h
                by_cases h4 : zdc = true ∧
                    lfTagCompare tD (getNode s1 fedId).lastProvisionallyGranted > 0 ∧
                    lfTagCompare tD (getNode s1 fedId).lastGranted > 0
                · rw [if_pos h4] at h
                  exact (congrArg Prod.snd (Option.some.inj h)).symm
                · rw [if_neg h4] at h
                  exact (congrArg Prod.snd (Option.some.inj h)).symm
              subst hs'
              intro j
              obtain ⟨ce1, ca1, ne1⟩ := heimt.1 j
              obtain ⟨ce2, nx2, ca2⟩ := hupd2 j
              refine ⟨coreEq_trans ce2 ce1, fun hj => cacheEq_trans (ca2 hj) (ca1 hj), ?_⟩
              have hnone := heimt.2.1 hc0 j
              exact Or.inl (nx2.trans hnone)
          · -- the cache was already valid: the EIMT update was the identity and
            -- the ZDC update is skipped, so the state is unchanged here
            have hcache1 : (getNode s1 fedId).numMinDelays ≠ 0 := by
              have := (heimt.2.2 hc0).2.1
              rw [this]
              exact hc0
            have hz : isInZeroDelayCycle s1 fedId fuel =
                some (decide ((getNode s1 fedId).flags &&& IS_IN_ZERO_DELAY_CYCLE ≠ 0), s1) := by
              unfold isInZeroDelayCycle updateMinDelaysUpstream
              rw [if_neg hcache1]
            rw [hz] at h
            dsimp only at h
            have hs' : s' = s1 := by
              by_cases h4 : decide ((getNode s1 fedId).flags &&& IS_IN_ZERO_DELAY_CYCLE ≠ 0) = true ∧
                  lfTagCompare tD (getNode s1 fedId).lastProvisionallyGranted > 0 ∧
                  lfTagCompare tD (getNode s1 fedId).lastGranted > 0
              · rw [if_pos h4] at h
                exact (congrArg Prod.snd (Option.some.inj h)).symm
              · rw [if_neg h4] at h
                exact (congrArg Prod.snd (Option.some.inj h)).symm
            subst hs'
            exact heimt.1
        · rw [if_neg h3] at h
          injection h with h4
          have hs' : s' = s1 := (congrArg Prod.snd h4).symm
          subst hs'
          exact heimt.1

/-- Claim C10: evaluating the grant decision mutates only the federate's
own min-delay cache fields (`minDelays`, `numMinDelays`, `flags`) and the
`nextEvent` of nodes listed in that cache whose `nextEvent` was `NEVER`
(overwritten with `(start_time, 0)` inside EIMT); every other field of
every node — `completed`, `lastGranted`, `lastProvisionallyGranted`,
`state`, `upstream`, `upstreamDelay`, `downstream` — is unchanged.  The
hypothesis asks that the federate's cached count is consistent with its
cached list (true in every state the engine itself produces). -/
theorem c10_grant_decision_frame (s : RTICommon) (fedId : Nat) (startTime : Int)
    (fuel : Nat) (g : TagAdvanceGrant) (s' : RTICommon)
    (hwf : (getNode s fedId).numMinDelays = (getNode s fedId).minDelays.length)
    (h : tagAdvanceGrantIfSafe s fedId startTime fuel = some (g, s')) :
    ∀ j,
      (getNode s' j).completed = (getNode s j).completed ∧
      (getNode s' j).lastGranted = (getNode s j).lastGranted ∧
      (getNode s' j).lastProvisionallyGranted = (getNode s j).lastProvisionallyGranted ∧
      (getNode s' j).state = (getNode s j).state ∧
      (getNode s' j).upstream = (getNode s j).upstream ∧
      (getNode s' j).upstreamDelay = (getNode s j).upstreamDelay ∧
      (getNode s' j).downstream = (getNode s j).downstream ∧
      (j = fedId ∨ ((getNode s' j).minDelays = (getNode s j).minDelays ∧
        (getNode s' j).numMinDelays = (getNode s j).numMinDelays ∧
        (getNode s' j).flags = (getNode s j).flags)) ∧
      ((getNode s' j).nextEvent = (getNode s j).nextEvent ∨
        ((getNode s j).nextEvent = neverTag ∧
          (getNode s' j).nextEvent = Tag.mk startTime 0 ∧
          j ∈ (getNode s' fedId).minDelays.map (fun m => m.id.toNat))) := by
  intro j
  obtain ⟨hcore, hcache, hnext⟩ := tagAdvanceGrantIfSafe_frame s fedId startTime fuel g s' hwf h j
  obtain ⟨_, e2, e3, e4, e5, e6, e7, _, e9, _, _⟩ := hcore
  refine ⟨e2, e3, e4, e5, e6, e7, e9, ?_, hnext⟩
  by_cases hj : j = fedId
  · exact Or.inl hj
  · exact Or.inr (hcache hj)

/-- Registry witnessing C10: a single connected node with no upstream. -/
def c10State : RTICommon := mkRegistry [grantedNode 0]

/-- Witness for C10 at a concrete input (the conclusion instantiated at
node 0): the fast path fires with `M = FOREVER` and leaves the registry
untouched. -/
theorem c10_grant_decision_frame_witness :
    (getNode c10State 0).completed = (getNode c10State 0).completed ∧
    (getNode c10State 0).lastGranted = (getNode c10State 0).lastGranted ∧
    (getNode c10State 0).lastProvisionallyGranted =
      (getNode c10State 0).lastProvisionallyGranted ∧
    (getNode c10State 0).state = (getNode c10State 0).state ∧
    (getNode c10State 0).upstream = (getNode c10State 0).upstream ∧
    (getNode c10State 0).upstreamDelay = (getNode c10State 0).upstreamDelay ∧
    (getNode c10State 0).downstream = (getNode c10State 0).downstream ∧
    ((0 : Nat) = 0 ∨ ((getNode c10State 0).minDelays = (getNode c10State 0).minDelays ∧
      (getNode c10State 0).numMinDelays = (getNode c10State 0).numMinDelays ∧
      (getNode c10State 0).flags = (getNode c10State 0).flags)) ∧
    ((getNode c10State 0).nextEvent = (getNode c10State 0).nextEvent ∨
      ((getNode c10State 0).nextEvent = neverTag ∧
        (getNode c10State 0).nextEvent = Tag.mk 0 0 ∧
        (0 : Nat) ∈ (getNode c10State 0).minDelays.map (fun m => m.id.toNat))) :=
  c10_grant_decision_frame c10State 0 0 10
    { tag := foreverTag, isProvisional := false } c10State (by decide) (by decide) 0

/-! ## Cascade facts: grant propagation never changes `completed`, never
lowers `lastGranted`, and moves `state` only towards `NotConnected`. -/

theorem compare_self (a : Tag) : lfTagCompare a a = 0 := by
  simp [lfTagCompare]

/-- What any grant-propagation step may do to a node: `completed` is
untouched, `lastGranted` never decreases in tag order, and the state either
stays or becomes `NotConnected`. -/
def CascadeFrame (s s' : RTICommon) : Prop :=
  ∀ j, (getNode s' j).completed = (getNode s j).completed ∧
    lfTagCompare (getNode s j).lastGranted (getNode s' j).lastGranted ≤ 0 ∧
    ((getNode s' j).state = (getNode s j).state ∨
      (getNode s' j).state = SchedulingNodeState.NotConnected)

theorem CascadeFrame_refl (s : RTICommon) : CascadeFrame s s :=
  fun j => ⟨rfl, le_of_eq (compare_self _), Or.inl rfl⟩

theorem CascadeFrame_trans {a b c : RTICommon}
    (h1 : CascadeFrame a b) (h2 : CascadeFrame b c) : CascadeFrame a c := by
  intro j
  obtain ⟨c1, l1, s1⟩ := h1 j
  obtain ⟨c2, l2, s2⟩ := h2 j
  refine ⟨c2.trans c1, compare_nonpos_trans l1 l2, ?_⟩
  rcases s2 with s2 | s2
  · rcases s1 with s1 | s1
    · exact Or.inl (s2.trans s1)
    · exact Or.inr (s2.trans s1)
  · exact Or.inr s2

theorem cascade_of_core {s s' : RTICommon}
    (h : ∀ j, coreEq (getNode s' j) (getNode s j)) : CascadeFrame s s' := by
  intro j
  obtain ⟨_, e2, e3, _, e5, _⟩ := h j
  exact ⟨e2, by rw [e3]; exact le_of_eq (compare_self _), Or.inl e5⟩

theorem cascade_updNode (s : RTICommon) (i : Nat) (f : SchedulingNode → SchedulingNode)
    (hcompleted : ∀ n, (f n).completed = n.completed)
    (hlg : ∀ n, (f n).lastGranted = n.lastGranted)
    (hstate : ∀ n, (f n).state = n.state ∨ (f n).state = SchedulingNodeState.NotConnected) :
    CascadeFrame s (updNode s i f) := by
  intro j
  by_cases hj : j = i
  · rcases getNode_updNode_self s i f with h1 | h1 <;> rw [hj, h1]
    · exact ⟨hcompleted _, by rw [hlg]; exact le_of_eq (compare_self _), hstate _⟩
    · exact ⟨rfl, le_of_eq (compare_self _), Or.inl rfl⟩
  · rw [getNode_updNode_ne _ _ _ _ hj]
    exact ⟨rfl, le_of_eq (compare_self _), Or.inl rfl⟩

/-- A total-fold preservation lemma. -/
theorem foldlRelTotal {σ : Type} {R : σ → σ → Prop}
    (hrefl : ∀ a, R a a) (htrans : ∀ {a b c}, R a b → R b c → R a c)
    (f : σ → Nat → σ) (hf : ∀ a i, R a (f a i)) :
    ∀ (l : List Nat) (a : σ), R a (l.foldl f a) := by
  intro l
  induction l with
  | nil => intro a; exact hrefl a
  | cons hd tl ih =>
    intro a
    exact htrans (hf a hd) (ih (f a hd))

theorem eimtStep_core (fedId : Nat) (st : Int) (a : Tag × RTICommon) (i : Nat) :
    ∀ j, coreEq (getNode (eimtStep fedId st a i).2 j) (getNode a.2 j) := by
  obtain ⟨t, s⟩ := a
  intro j
  unfold eimtStep
  dsimp only
  by_cases h0 : lfTagCompare
      (getNode s ((getNode s fedId).minDelays.getD i defaultMinimumDelay).id.toNat).nextEvent
      neverTag = 0
  · rw [if_pos h0]
    by_cases hj : j = ((getNode s fedId).minDelays.getD i defaultMinimumDelay).id.toNat
    · rcases getNode_updNode_self s ((getNode s fedId).minDelays.getD i defaultMinimumDelay).id.toNat
          (fun u => { u with nextEvent := Tag.mk st 0 }) with h1 | h1
      · rw [hj, h1]; simp [coreEq]
      · rw [hj, h1]; exact coreEq_refl _
    · rw [getNode_updNode_ne _ _ _ _ hj]
      exact coreEq_refl _
  · rw [if_neg h0]
    exact coreEq_refl _

theorem eimt_core (s : RTICommon) (fedId : Nat) (st : Int) (fuel : Nat)
    (tD : Tag) (s' : RTICommon)
    (h : earliestFutureIncomingMessageTag s fedId st fuel = some (tD, s')) :
    ∀ j, coreEq (getNode s' j) (getNode s j) := by
  unfold earliestFutureIncomingMessageTag at h
  cases hu : updateMinDelaysUpstream s fedId fuel with
  | none => rw [hu] at h; cases h
  | some s1 =>
    rw [hu] at h
    dsimp only at h
    injection h with h1
    have hupd := updateMinDelaysUpstream_frame s fedId fuel s1 hu
    have hfold : ∀ j, coreEq
        (getNode ((List.range (getNode s fedId).numMinDelays).foldl
          (eimtStep fedId st) (foreverTag, s1)).2 j) (getNode s1 j) :=
      foldlRelTotal (σ := Tag × RTICommon)
        (R := fun a b => ∀ j, coreEq (getNode b.2 j) (getNode a.2 j))
        (fun a j => coreEq_refl _)
        (fun hab hbc j => coreEq_trans (hbc j) (hab j))
        (eimtStep fedId st) (fun a i => eimtStep_core fedId st a i)
        (List.range (getNode s fedId).numMinDelays) (foreverTag, s1)
    have hs' : s' = ((List.range (getNode s fedId).numMinDelays).foldl
        (eimtStep fedId st) (foreverTag, s1)).2 := (congrArg Prod.snd h1).symm
    rw [hs']
    exact fun j => coreEq_trans (hfold j) ((hupd j).1)

theorem isInZeroDelayCycle_frame (s : RTICommon) (fedId : Nat) (fuel : Nat)
    (b : Bool) (s' : RTICommon)
    (h : isInZeroDelayCycle s fedId fuel = some (b, s')) : UpdFrame fedId s s' := by
  unfold isInZeroDelayCycle at h
  cases hu : updateMinDelaysUpstream s fedId fuel with
  | none => rw [hu] at h; cases h
  | some s1 =>
    rw [hu] at h
    dsimp only at h
    injection h with h1
    have hs' : s' = s1 := (congrArg Prod.snd h1).symm
    rw [hs']
    exact updateMinDelaysUpstream_frame s fedId fuel s1 hu

theorem tagAdvance_core (s : RTICommon) (fedId : Nat) (st : Int) (fuel : Nat)
    (g : TagAdvanceGrant) (s' : RTICommon)
    (h : tagAdvanceGrantIfSafe s fedId st fuel = some (g, s')) :
    ∀ j, coreEq (getNode s' j) (getNode s j) := by
  unfold tagAdvanceGrantIfSafe at h
  dsimp only at h
  by_cases h1 : lfTagCompare (minUpstreamCompletedFold s
      (List.zip (getNode s fedId).upstream (getNode s fedId).upstreamDelay) foreverTag)
      (getNode s fedId).lastGranted > 0 ∧
      lfTagCompare (minUpstreamCompletedFold s
      (List.zip (getNode s fedId).upstream (getNode s fedId).upstreamDelay) foreverTag)
      (getNode s fedId).nextEvent ≥ 0
  · rw [if_pos h1] at h
    injection h with h2
    have hs' : s' = s := (congrArg Prod.snd h2).symm
    rw [hs']
    exact fun j => coreEq_refl _
  · rw [if_neg h1] at h
    cases he : earliestFutureIncomingMessageTag s fedId st fuel with
    | none => rw [he] at h; cases h
    | some p =>
      rw [he] at h
      obtain ⟨tD, s1⟩ := p
      have hc1 := eimt_core s fedId st fuel tD s1 he
      dsimp only at h
      by_cases h2 : lfTagCompare tD (getNode s1 fedId).nextEvent > 0 ∧
          lfTagCompare tD (getNode s1 fedId).lastProvisionallyGranted ≥ 0 ∧
          lfTagCompare tD (getNode s1 fedId).lastGranted > 0
      · rw [if_pos h2] at h
        injection h with h3
        have hs' : s' = s1 := (congrArg Prod.snd h3).symm
        rw [hs']
        exact hc1
      · rw [if_neg h2] at h
        by_cases h3 : lfTagCompare tD (getNode s1 fedId).nextEvent = 0
        · rw [if_pos h3] at h
          cases hz : isInZeroDelayCycle s1 fedId fuel with
          | none => rw [hz] at h; cases h
          | some q =>
            rw [hz] at h
            obtain ⟨zdc, s2⟩ := q
            have hc2 := isInZeroDelayCycle_frame s1 fedId fuel zdc s2 hz
            have hs' : s' = s2 := by
              dsimp only at h
              by_cases h4 : zdc = true ∧
                  lfTagCompare tD (getNode s1 fedId).lastProvisionallyGranted > 0 ∧
                  lfTagCompare tD (getNode s1 fedId).lastGranted > 0
              · rw [if_pos h4] at h
                exact (congrArg Prod.snd (Option.some.inj h)).symm
              · rw [if_neg h4] at h
                exact (congrArg Prod.snd (Option.some.inj h)).symm
            rw [hs']
            exact fun j => coreEq_trans ((hc2 j).1) (hc1 j)
        · rw [if_neg h3] at h
          injection h with h4
          have hs' : s' = s1 := (congrArg Prod.snd h4).symm
          rw [hs']
          exact hc1

theorem notifyTag_cascade (s : RTICommon) (fedId : Nat) (tag : Tag)
    (wr : Nat → WriteOutcome) (s' : RTICommon)
    (h : notifyTagAdvanceGrant s fedId tag wr = some s') : CascadeFrame s s' := by
  unfold notifyTagAdvanceGrant at h
  dsimp only at h
  by_cases h1 : (getNode s fedId).state = SchedulingNodeState.NotConnected ∨
      lfTagCompare tag (getNode s fedId).lastGranted ≤ 0 ∨
      lfTagCompare tag (getNode s fedId).lastProvisionallyGranted ≤ 0
  · rw [if_pos h1] at h
    cases h
    exact CascadeFrame_refl _
  · rw [if_neg h1] at h
    by_cases h2 : (getNode s fedId).state = SchedulingNodeState.Pending
    · rw [if_pos h2] at h; cases h
    · rw [if_neg h2] at h
      push_neg at h1
      obtain ⟨_, hlg, _⟩ := h1
      cases hw : wr fedId with
      | ok n =>
        rw [hw] at h
        dsimp only at h
        rw [if_neg (by decide)] at h
        cases h
        intro j
        by_cases hj : j = fedId
        · rcases getNode_updNode_self s fedId (fun nd => { nd with lastGranted := tag })
              with hh | hh <;> rw [hj, hh]
          · refine ⟨rfl, ?_, Or.inl rfl⟩
            show lfTagCompare (getNode s fedId).lastGranted tag ≤ 0
            exact compare_pos_neg (by omega)
          · exact ⟨rfl, le_of_eq (compare_self _), Or.inl rfl⟩
        · rw [getNode_updNode_ne _ _ _ _ hj]
          exact ⟨rfl, le_of_eq (compare_self _), Or.inl rfl⟩
      | err =>
        rw [hw] at h
        dsimp only at h
        rw [if_pos (by decide)] at h
        cases h
        exact cascade_updNode s fedId _ (fun n => rfl) (fun n => rfl)
          (fun n => Or.inr rfl)

theorem ptagFold_cascade (fuel1 : Nat) (fedId : Nat) (tag : Tag) (st : Int)
    (wr : Nat → WriteOutcome)
    (ih : ∀ s2 f2 s3, notifyProvisionalTagAdvanceGrant fuel1 s2 f2 tag st wr = some s3 →
      CascadeFrame s2 s3)
    (l : List Nat) (sB s' : RTICommon)
    (h : l.foldl (ptagPropagateStep
        (fun s1 eId => notifyProvisionalTagAdvanceGrant fuel1 s1 eId tag st wr)
        fedId tag st fuel1) (some sB) = some s') :
    CascadeFrame sB s' := by
  refine foldlOptionRel CascadeFrame_refl (fun hab hbc => CascadeFrame_trans hab hbc)
    _ (fun i => rfl) ?_ l sB s' h
  intro a i a' hstep
  unfold ptagPropagateStep at hstep
  dsimp only at hstep
  by_cases hnc : (getNode a ((getNode a fedId).upstream.getD i 0).toNat).state =
      SchedulingNodeState.NotConnected
  · rw [if_pos hnc] at hstep
    cases hstep
    exact CascadeFrame_refl _
  · rw [if_neg hnc] at hstep
    cases he : earliestFutureIncomingMessageTag a
        ((getNode a fedId).upstream.getD i 0).toNat st fuel1 with
    | none => rw [he] at hstep; cases hstep
    | some p =>
      rw [he] at hstep
      obtain ⟨earlist, s1⟩ := p
      dsimp only at hstep
      have hca : CascadeFrame a s1 := cascade_of_core (eimt_core _ _ _ _ _ _ he)
      by_cases hge : lfTagCompare earlist tag ≥ 0
      · rw [if_pos hge] at hstep
        exact CascadeFrame_trans hca (ih _ _ _ hstep)
      · rw [if_neg hge] at hstep
        cases hstep
        exact hca

theorem notifyPtag_cascade : ∀ (fuel : Nat) (s : RTICommon) (fedId : Nat) (tag : Tag)
    (st : Int) (wr : Nat → WriteOutcome) (s' : RTICommon),
    notifyProvisionalTagAdvanceGrant fuel s fedId tag st wr = some s' →
    CascadeFrame s s' := by
  intro fuel
  induction fuel with
  | zero => intro s fedId tag st wr s' h; cases h
  | succ fuel1 ih =>
    intro s fedId tag st wr s' h
    unfold notifyProvisionalTagAdvanceGrant at h
    dsimp only at h
    by_cases h1 : (getNode s fedId).state = SchedulingNodeState.NotConnected ∨
        lfTagCompare tag (getNode s fedId).lastGranted ≤ 0 ∨
        lfTagCompare tag (getNode s fedId).lastProvisionallyGranted ≤ 0
    · rw [if_pos h1] at h
      cases h
      exact CascadeFrame_refl _
    · rw [if_neg h1] at h
      by_cases h2 : (getNode s fedId).state = SchedulingNodeState.Pending
      · rw [if_pos h2] at h; cases h
      · rw [if_neg h2] at h
        cases hw : wr fedId with
        | ok n =>
          rw [hw] at h
          dsimp only at h
          by_cases h3 : n < messageLength
          · rw [if_pos h3] at h
            cases h
            exact CascadeFrame_refl _
          · rw [if_neg h3] at h
            have hstep1 : CascadeFrame s
                (updNode s fedId (fun nd => { nd with lastProvisionallyGranted := tag })) :=
              cascade_updNode s fedId _ (fun n => rfl) (fun n => rfl) (fun n => Or.inl rfl)
            exact CascadeFrame_trans hstep1
              (ptagFold_cascade fuel1 fedId tag st wr
                (fun s2 f2 s3 hh => ih s2 f2 tag st wr s3 hh) _ _ _ h)
        | err =>
          rw [hw] at h
          dsimp only at h
          have hstep0 : CascadeFrame s
              (updNode s fedId (fun nd => { nd with state := SchedulingNodeState.NotConnected })) :=
            cascade_updNode s fedId _ (fun n => rfl) (fun n => rfl) (fun n => Or.inr rfl)
          have hstep1 : CascadeFrame
              (updNode s fedId (fun nd => { nd with state := SchedulingNodeState.NotConnected }))
              (updNode (updNode s fedId
                  (fun nd => { nd with state := SchedulingNodeState.NotConnected })) fedId
                (fun nd => { nd with lastProvisionallyGranted := tag })) :=
            cascade_updNode _ fedId _ (fun n => rfl) (fun n => rfl) (fun n => Or.inl rfl)
          exact CascadeFrame_trans (CascadeFrame_trans hstep0 hstep1)
            (ptagFold_cascade fuel1 fedId tag st wr
              (fun s2 f2 s3 hh => ih s2 f2 tag st wr s3 hh) _ _ _ h)

theorem notifyAdvance_cascade (s : RTICommon) (fedId : Nat) (st : Int)
    (wr : Nat → WriteOutcome) (fuel : Nat) (s' : RTICommon)
    (h : notifyAdvanceGrantIfSafe s fedId st wr fuel = some s') : CascadeFrame s s' := by
  unfold notifyAdvanceGrantIfSafe at h
  cases hg : tagAdvanceGrantIfSafe s fedId st fuel with
  | none => rw [hg] at h; cases h
  | some p =>
    rw [hg] at h
    obtain ⟨grant, s1⟩ := p
    have hc1 : CascadeFrame s s1 := cascade_of_core (tagAdvance_core s fedId st fuel grant s1 hg)
    dsimp only at h
    by_cases h1 : lfTagCompare grant.tag neverTag ≠ 0
    · rw [if_pos h1] at h
      by_cases h2 : grant.isProvisional = true
      · rw [if_pos h2] at h
        exact CascadeFrame_trans hc1 (notifyPtag_cascade fuel s1 fedId grant.tag st wr s' h)
      · rw [if_neg h2] at h
        exact CascadeFrame_trans hc1 (notifyTag_cascade s1 fedId grant.tag wr s' h)
    · rw [if_neg h1] at h
      cases h
      exact hc1

theorem notifyDownstream_cascade : ∀ (fuel : Nat) (s : RTICommon) (fedId : Nat)
    (st : Int) (visited : List Bool) (wr : Nat → WriteOutcome)
    (r : RTICommon × List Bool),
    notifyDownstreamAdvanceGrantIfSafe fuel s fedId st visited wr = some r →
    CascadeFrame s r.1 := by
  intro fuel
  induction fuel with
  | zero => intro s fedId st visited wr r h; cases h
  | succ fuel1 ih =>
    intro s fedId st visited wr r h
    unfold notifyDownstreamAdvanceGrantIfSafe at h
    dsimp only at h
    refine foldlOptionRel (σ := RTICommon × List Bool)
      (R := fun a b => CascadeFrame a.1 b.1)
      (fun a => CascadeFrame_refl _) (fun hab hbc => CascadeFrame_trans hab hbc)
      _ (fun i => rfl) ?_ _ _ _ h
    intro a i a' hstep
    dsimp only at hstep
    by_cases hv : a.2.getD ((getNode a.1 fedId).downstream.getD i 0).toNat false = true
    · rw [if_pos hv] at hstep
      cases hstep
      exact CascadeFrame_refl _
    · rw [if_neg hv] at hstep
      cases hn : notifyAdvanceGrantIfSafe a.1 ((getNode a.1 fedId).downstream.getD i 0).toNat
          st wr fuel1 with
      | none => rw [hn] at hstep; cases hstep
      | some s3 =>
        rw [hn] at hstep
        exact CascadeFrame_trans (notifyAdvance_cascade _ _ _ _ _ _ hn)
          (ih s3 _ st a.2 wr a' hstep)

/-! ## Reachability and the completed/last_granted invariant (claim C9) -/

/-- The registry after `initialize_scheduling_node(i)` has run for each of
`n` freshly constructed nodes (`SchedulingNode::new` + id assignment). -/
def initialRegistry (n : Nat) : RTICommon :=
  { nodes := (List.range n).map (fun i => { SchedulingNode.new with id := i })
    numberOfSchedulingNodes := Int.ofNat n
    maxStopTag := neverTag
    numSchedulingNodesHandlingStop := 0 }

/-- States reachable through the engine's public operations: initialization,
`set_state` (driven by the federate handshake), and a Logical Tag Complete
notification with an arbitrary tag (the dispatcher does not filter them). -/
inductive Reachable : RTICommon → Prop where
  | init (n : Nat) : Reachable (initialRegistry n)
  | setState (s : RTICommon) (f : Nat) (st : SchedulingNodeState) :
      Reachable s → Reachable (updNode s f (fun e => { e with state := st }))
  | ltc (s s' : RTICommon) (f : Nat) (t : Tag) (startTime : Int)
      (wr : Nat → WriteOutcome) (fuel : Nat) :
      Reachable s →
      logicalTagComplete fuel s f s.numberOfSchedulingNodes.toNat startTime wr t = some s' →
      Reachable s'

/-- One connected node, nothing granted yet. -/
def c9Connected : RTICommon :=
  updNode (initialRegistry 1) 0 (fun e => { e with state := SchedulingNodeState.Granted })

/-- The state after an LTC with tag `(0,0)` hits `c9Connected`. -/
def c9Broken : RTICommon :=
  updNode c9Connected 0 (fun e => { e with completed := Tag.mk 0 0 })

/-- Claim C9 (counterexample): a reachable state with a connected node whose
`completed` exceeds its `lastGranted`.  `logical_tag_complete` stores the
delivered tag unconditionally, so one LTC notification carrying `(0,0)` to a
node that has never been granted anything (`last_granted = NEVER`) already
violates the claimed invariant. -/
theorem c9_ltc_violates_invariant :
    Reachable c9Broken ∧
    (getNode c9Broken 0).state ≠ SchedulingNodeState.NotConnected ∧
    lfTagCompare (getNode c9Broken 0).completed (getNode c9Broken 0).lastGranted > 0 :=
  ⟨Reachable.ltc c9Connected c9Broken 0 (Tag.mk 0 0) 0 (fun _ => WriteOutcome.ok 13) 10
      (Reachable.setState (initialRegistry 1) 0 SchedulingNodeState.Granted (Reachable.init 1))
      (by decide),
    by decide, by decide⟩

/-- Claim C9 (amended): `logical_tag_complete` preserves
`completed ≤ last_granted` at every connected node, provided the delivered
tag does not exceed the target federate's `last_granted`; the downstream
grant cascade never changes any `completed`, never lowers any
`last_granted`, and moves states only towards `NotConnected`. -/
theorem c9_ltc_preserves_invariant (fuel : Nat) (s : RTICommon) (fedId n : Nat)
    (startTime : Int) (wr : Nat → WriteOutcome) (t : Tag) (s' : RTICommon)
    (hinv : ∀ j, (getNode s j).state ≠ SchedulingNodeState.NotConnected →
      lfTagCompare (getNode s j).completed (getNode s j).lastGranted ≤ 0)
    (htag : lfTagCompare t (getNode s fedId).lastGranted ≤ 0)
    (hrun : logicalTagComplete fuel s fedId n startTime wr t = some s') :
    ∀ j, (getNode s' j).state ≠ SchedulingNodeState.NotConnected →
      lfTagCompare (getNode s' j).completed (getNode s' j).lastGranted ≤ 0 := by
  unfold logicalTagComplete at hrun
  dsimp only at hrun
  have hfold : CascadeFrame (updNode s fedId (fun nd => { nd with completed := t })) s' := by
    refine foldlOptionRel CascadeFrame_refl (fun hab hbc => CascadeFrame_trans hab hbc)
      _ (fun i => rfl) ?_ _ _ _ hrun
    intro a i a' hstep
    dsimp only at hstep
    cases hn : notifyAdvanceGrantIfSafe a ((getNode a fedId).downstream.getD i 0).toNat
        startTime wr fuel with
    | none => rw [hn] at hstep; cases hstep
    | some s3 =>
      rw [hn] at hstep
      dsimp only at hstep
      cases hd : notifyDownstreamAdvanceGrantIfSafe fuel s3
          ((getNode a fedId).downstream.getD i 0).toNat startTime
          (List.replicate n false) wr with
      | none => rw [hd] at hstep; cases hstep
      | some r =>
        rw [hd] at hstep
        obtain ⟨s4, vis⟩ := r
        cases hstep
        exact CascadeFrame_trans (notifyAdvance_cascade _ _ _ _ _ _ hn)
          (notifyDownstream_cascade fuel s3 _ startTime _ wr _ hd)
  have hS1state : ∀ j, (getNode (updNode s fedId (fun nd => { nd with completed := t })) j).state =
      (getNode s j).state := by
    intro j
    by_cases hj : j = fedId
    · rcases getNode_updNode_self s fedId (fun nd => { nd with completed := t }) with hh | hh <;>
        rw [hj, hh]
    · rw [getNode_updNode_ne _ _ _ _ hj]
  have hS1lg : ∀ j, (getNode (updNode s fedId (fun nd => { nd with completed := t })) j).lastGranted =
      (getNode s j).lastGranted := by
    intro j
    by_cases hj : j = fedId
    · rcases getNode_updNode_self s fedId (fun nd => { nd with completed := t }) with hh | hh <;>
        rw [hj, hh]
    · rw [getNode_updNode_ne _ _ _ _ hj]
  have hS1comp : ∀ j, (getNode (updNode s fedId (fun nd => { nd with completed := t })) j).completed = t ∨
      (getNode (updNode s fedId (fun nd => { nd with completed := t })) j).completed =
        (getNode s j).completed := by
    intro j
    by_cases hj : j = fedId
    · rcases getNode_updNode_self s fedId (fun nd => { nd with completed := t }) with hh | hh
      · rw [hj, hh]; exact Or.inl rfl
      · rw [hj, hh]; exact Or.inr rfl
    · rw [getNode_updNode_ne _ _ _ _ hj]; exact Or.inr rfl
  have hS1compNe : ∀ j, j ≠ fedId →
      (getNode (updNode s fedId (fun nd => { nd with completed := t })) j).completed =
        (getNode s j).completed := by
    intro j hj
    rw [getNode_updNode_ne _ _ _ _ hj]
  intro j hjstate
  obtain ⟨hcomp, hlg, hstate⟩ := hfold j
  have hstate_eq : (getNode s' j).state = (getNode s j).state := by
    rcases hstate with hstate | hstate
    · rw [hstate, hS1state]
    · exact absurd hstate hjstate
  have hs_state : (getNode s j).state ≠ SchedulingNodeState.NotConnected := by
    rw [← hstate_eq]; exact hjstate
  have hlg' : lfTagCompare (getNode s j).lastGranted (getNode s' j).lastGranted ≤ 0 := by
    rw [← hS1lg j]; exact hlg
  by_cases hj : j = fedId
  · rcases hS1comp j with hc | hc
    · rw [hcomp, hc, hj]
      exact compare_nonpos_trans (hj ▸ htag) (hj ▸ hlg')
    · rw [hcomp, hc]
      exact compare_nonpos_trans (hinv j hs_state) hlg'
  · rw [hcomp, hS1compNe j hj]
    exact compare_nonpos_trans (hinv j hs_state) hlg'

/-- One connected node that has been granted `(5,0)`. -/
def c9Granted : RTICommon :=
  updNode c9Connected 0 (fun e => { e with lastGranted := Tag.mk 5 0 })

/-- Witness for the amended C9 theorem at a concrete input: an LTC with tag
`(3,0) ≤ (5,0)` preserves the invariant (instantiated at node 0). -/
theorem c9_ltc_preserves_invariant_witness :
    lfTagCompare (getNode (updNode c9Granted 0 (fun e => { e with completed := Tag.mk 3 0 })) 0).completed
      (getNode (updNode c9Granted 0 (fun e => { e with completed := Tag.mk 3 0 })) 0).lastGranted ≤ 0 :=
  c9_ltc_preserves_invariant 10 c9Granted 0 1 0 (fun _ => WriteOutcome.ok 13) (Tag.mk 3 0)
    (updNode c9Granted 0 (fun e => { e with completed := Tag.mk 3 0 }))
    (fun j => by
      match j with
      | 0 => intro _; decide
      | k + 1 => intro hst; exact absurd rfl hst)
    (by decide) (by decide) 0 (by decide)

/-! ## Grant frame encoding (claim C7)

`message_length = 1 + mem::size_of::<i64>() + mem::size_of::<u32>()` and the
buffer is allocated with exactly that many bytes in both
`notify_tag_advance_grant` and `notify_provisional_tag_advance_grant`. -/

/-- The `as i32` cast applied to the TAG frame's microstep (wrapping). -/
def u32AsI32 (ms : Nat) : Int :=
  if ms < 2 ^ 31 then (ms : Int) else (ms : Int) - 2 ^ 32

/-- The `try_into::<i32>().unwrap()` applied to the PTAG frame's microstep:
panics — modelled as `none` — for values not representable in `i32`. -/
def u32TryIntoI32 (ms : Nat) : Option Int :=
  if ms < 2 ^ 31 then some (ms : Int) else none

/-- Modelled from the spec: `NetUtil::encode_int64` writes the eight bytes
of the two's-complement `i64` little-endian into the buffer (`net_util.rs`
is not among the provided sources; the spec fixes the layout as
`time: i64 LE`). -/
def int64LEBytes (x : Int) : List Nat :=
  (List.range 8).map (fun i => ((x % 2 ^ 64).toNat >>> (8 * i)) % 256)

/-- Modelled from the spec: `NetUtil::encode_int32`, the four little-endian
bytes of the two's-complement `i32`. -/
def int32LEBytes (x : Int) : List Nat :=
  (List.range 4).map (fun i => ((x % 2 ^ 32).toNat >>> (8 * i)) % 256)

/-- Overwrite `bytes` into `buf` starting at position `pos`. -/
def storeBytes (buf : List Nat) (pos : Nat) (bytes : List Nat) : List Nat :=
  (bytes.foldl (fun acc b => (acc.1.set acc.2 b, acc.2 + 1)) (buf, pos)).1

/-- The TAG grant frame exactly as `notify_tag_advance_grant` builds it: a
zeroed buffer of `message_length` bytes, the type byte at offset 0, the
tag's time at offset 1, the microstep (cast `as i32`) at offset 9. -/
def tagGrantFrame (typeByte : Nat) (tag : Tag) : List Nat :=
  storeBytes
    (storeBytes ((List.replicate messageLength 0).set 0 typeByte) 1 (int64LEBytes tag.time))
    (1 + 8) (int32LEBytes (u32AsI32 tag.microstep))

/-- The PTAG grant frame as `notify_provisional_tag_advance_grant` builds
it; `none` when the microstep `try_into().unwrap()` would panic. -/
def ptagGrantFrame (typeByte : Nat) (tag : Tag) : Option (List Nat) :=
  match u32TryIntoI32 tag.microstep with
  | none => none
  | some m =>
    some (storeBytes
      (storeBytes ((List.replicate messageLength 0).set 0 typeByte) 1 (int64LEBytes tag.time))
      (1 + 8) (int32LEBytes m))

/-- Claim C7 (counterexample): the grant frame is not 9 bytes long — the
source computes `message_length = 1 + 8 + 4 = 13` and allocates and sends a
13-byte buffer. -/
theorem c7_frame_not_nine_bytes :
    (tagGrantFrame 7 (Tag.mk 5 2)).length ≠ 9 ∧
    (tagGrantFrame 7 (Tag.mk 5 2)).length = 13 ∧ messageLength = 13 := by
  decide

/-- Claim C7 (amended): the grant frame the engine encodes is 13 bytes —
one type byte, then the tag's time as an `i64` little-endian, then the
tag's microstep as a `u32` little-endian (written through an `i32` cast
whose two's-complement bytes coincide with the `u32` bytes); the PTAG frame
has the same layout (its microstep conversion panics at or above `2^31`,
hence the hypothesis). -/
theorem c7_frame_thirteen_bytes (typeByte : Nat) (tag : Tag)
    (h : tag.microstep < 2 ^ 31) :
    tagGrantFrame typeByte tag =
      typeByte :: (int64LEBytes tag.time ++ int32LEBytes (u32AsI32 tag.microstep)) ∧
    (tagGrantFrame typeByte tag).length = 13 ∧
    int32LEBytes (u32AsI32 tag.microstep) =
      (List.range 4).map (fun i => (tag.microstep >>> (8 * i)) % 256) ∧
    ptagGrantFrame typeByte tag =
      some (typeByte :: (int64LEBytes tag.time ++ int32LEBytes ((tag.microstep : Int)))) := by
  have key : ((u32AsI32 tag.microstep) % 2 ^ 32).toNat = tag.microstep := by
    unfold u32AsI32
    rw [if_pos h]
    have h1 : ((tag.microstep : Int)) % 2 ^ 32 = (tag.microstep : Int) :=
      Int.emod_eq_of_lt (by omega) (by omega)
    rw [h1]
    omega
  refine ⟨rfl, rfl, ?_, ?_⟩
  · unfold int32LEBytes
    simp only [key]
  · unfold ptagGrantFrame u32TryIntoI32
    rw [if_pos h]
    rfl

/-- Witness for the amended C7 theorem at type byte 3 and tag `(5, 2)`. -/
theorem c7_frame_thirteen_bytes_witness :
    tagGrantFrame 3 (Tag.mk 5 2) =
      3 :: (int64LEBytes (Tag.mk 5 2).time ++ int32LEBytes (u32AsI32 (Tag.mk 5 2).microstep)) ∧
    (tagGrantFrame 3 (Tag.mk 5 2)).length = 13 ∧
    int32LEBytes (u32AsI32 (Tag.mk 5 2).microstep) =
      (List.range 4).map (fun i => ((Tag.mk 5 2).microstep >>> (8 * i)) % 256) ∧
    ptagGrantFrame 3 (Tag.mk 5 2) =
      some (3 :: (int64LEBytes (Tag.mk 5 2).time ++ int32LEBytes (((Tag.mk 5 2).microstep : Int)))) :=
  c7_frame_thirteen_bytes 3 (Tag.mk 5 2) (by decide)

end LfRti
